import Mathlib

/-!
# Verification of the Ultimate Tic-Tac-Toe engine

Shallow embedding of the core game state (`Board`, `UltimateBoard`), the
move generator, the incremental Zobrist hash, the minimax agent's search
control flow and the Monte-Carlo tree-search agent's selection step,
translated from the Rust sources (`src/board.rs`, `src/game/bitboard.rs`,
`src/game/ultimate_board.rs`, `src/agents/minimax_agent.rs`,
`src/agent/monte_carlo_tree_agent/mod.rs`).

Machine integers are modelled as `Nat`: the 9-bit sub-board masks and the
64-bit hash are only combined with `^^^`, `|||`, `&&&`, which never leave
the value range, so no wrap-around arithmetic is required.  The Zobrist
table (a fixed array of ChaCha20-generated `u64` values) is modelled as an
abstract function `Z : Nat → Nat`: every claim about the hash holds for an
arbitrary table.  Panics (`panic!`, index out of bounds, `unwrap` on
`None`) are modelled by returning `none` from an `Option`-valued function.
-/

/-- `Player` from `src/game/player.rs`: the two players, `One = 0`, `Two = 1`. -/
inductive Player where
  | One
  | Two
deriving DecidableEq, Repr

/-- `player as u8` / `player as usize`: the discriminant used to index the
per-player bitboard array and the Zobrist table. -/
def Player.toNat : Player → Nat
  | .One => 0
  | .Two => 1

/-- `Player::get_opponent`. -/
def Player.get_opponent : Player → Player
  | .One => .Two
  | .Two => .One

/-- `GameResult` from `src/game_result.rs`: `Win(player) | Draw | Continue`. -/
inductive GameResult where
  | Win (p : Player)
  | Draw
  | Continue
deriving DecidableEq, Repr

/-! ## BitBoard (`src/game/bitboard.rs`)

A `BitBoard` is a `u16` whose upper 7 bits are always unset; we model the
value directly as a `Nat`.  `trailing_zeros` and the pop-lowest-set-bit
iterator are written with explicit fuel: a `u16` has at most 16 bits, so
fuel 16 is exact. -/

/-- `u16::trailing_zeros` on a nonzero value, fuel-bounded (16 bits suffice
for every `u16`; the fuel is never exhausted on the values that occur). -/
def tzAux : Nat → Nat → Nat
  | 0, _ => 0
  | fuel + 1, n => if n % 2 = 1 then 0 else tzAux fuel (n / 2) + 1

/-- The `BitBoardIterator`: repeatedly `pop_first_square` (lowest set bit,
then clear it with `^= 1 << s`) until the board is empty.  A `u16` has at
most 16 set bits, so fuel 16 runs the loop to completion. -/
def popSquaresAux : Nat → Nat → List Nat
  | 0, _ => []
  | fuel + 1, v =>
    if v = 0 then []
    else
      let s := tzAux 16 v
      s :: popSquaresAux fuel (v ^^^ (1 <<< s))

/-- `BitBoard::into_iter().collect()`: the set-bit indices popped in order. -/
def BitBoard.intoIter (v : Nat) : List Nat := popSquaresAux 16 v

/-- `Not for BitBoard`: `!self.0 & 0b111111111` on a `u16` value
(complement on 16 bits, then keep the low 9 bits). -/
def BitBoard.bbNot (v : Nat) : Nat := (v ^^^ 0xFFFF) &&& 0b111111111

/-! ## Board (`src/board.rs`) -/

/-- `Board`: two per-player bitboards (internal square numbering) plus the
`unique_id` used to offset moves to global indices. -/
structure Board where
  boardOne : Nat
  boardTwo : Nat
  unique_id : Nat
deriving DecidableEq, Repr

instance : Inhabited Board := ⟨⟨0, 0, 0⟩⟩

/-- `self.board[player as usize]`. -/
def Board.bbOf (b : Board) (p : Player) : Nat :=
  match p with
  | .One => b.boardOne
  | .Two => b.boardTwo

/-- `Board::from_human_to_bit`: translate the human square index (0-8) to
the internal bit position.  The source panics on an index `> 8`; all call
sites guard the index first, so the out-of-range case (mapped to 0 here)
is unreachable. -/
def from_human_to_bit (index : Nat) : Nat :=
  match index with
  | 0 => 0
  | 1 => 1
  | 2 => 2
  | 3 => 7
  | 4 => 8
  | 5 => 3
  | 6 => 6
  | 7 => 5
  | 8 => 4
  | _ => 0

/-- `Board::from_bit_to_human`: translate an internal bit position back to
the human square index.  The source panics on an index `> 8`; the iterator
only produces bit positions of a 9-bit board, so the out-of-range case
(mapped to 0 here) is unreachable. -/
def from_bit_to_human (index : Nat) : Nat :=
  match index with
  | 0 => 0
  | 1 => 1
  | 2 => 2
  | 3 => 5
  | 4 => 8
  | 5 => 7
  | 6 => 6
  | 7 => 3
  | 8 => 4
  | _ => 0

/-- `Board::set`: panics (`none`) when `index > 8`, otherwise ORs the bit
at the translated position into the current player's bitboard.  Note that
it does not check whether the square is already set. -/
def Board.set (b : Board) (index : Nat) (player : Player) : Option Board :=
  if 8 < index then none
  else
    let translated_index := from_human_to_bit index
    match player with
    | .One => some { b with boardOne := b.boardOne ||| (1 <<< translated_index) }
    | .Two => some { b with boardTwo := b.boardTwo ||| (1 <<< translated_index) }

/-- `WIN_POSITIONS` of `src/board.rs`: the 8 win lines as 9-bit masks in
the internal numbering. -/
def WIN_POSITIONS_BOARD : List Nat :=
  [0b111, 0b110001000, 0b1110000,
   0b11000001, 0b100100010, 0b11100,
   0b100010001, 0b101000100]

/-- The double loop of `Board::check_if_won`: first mask that is fully
covered by a player's bitboard (players tried in order One, Two). -/
def Board.winAux : List Nat → Board → Option Player
  | [], _ => none
  | m :: rest, b =>
    if m &&& b.boardOne = m then some Player.One
    else if m &&& b.boardTwo = m then some Player.Two
    else Board.winAux rest b

/-- `Board::check_if_won`: a win line fully owned by a player wins, a full
board with no winner is a draw, otherwise the game continues. -/
def Board.check_if_won (b : Board) : GameResult :=
  match Board.winAux WIN_POSITIONS_BOARD b with
  | some p => GameResult.Win p
  | none =>
    if b.boardOne ||| b.boardTwo = 0b111111111 then GameResult.Draw
    else GameResult.Continue

/-- `Board::get_possible_moves`: iterate the set bits of the complement of
the union of both bitboards, translating each to a global move index
`from_bit_to_human(i) + 9 * unique_id`. -/
def Board.get_possible_moves (b : Board) : List Nat :=
  (BitBoard.intoIter (BitBoard.bbNot (b.boardOne ||| b.boardTwo))).map
    (fun i => from_bit_to_human i + 9 * b.unique_id)

/-! ## UltimateBoard (`src/game/ultimate_board.rs`) -/

/-- `WIN_POSITIONS` of `src/game/ultimate_board.rs`: the 8 meta win lines
as triples of sub-board indices. -/
def WIN_POSITIONS : List (Nat × Nat × Nat) :=
  [(0, 1, 2), (3, 4, 5), (6, 7, 8),
   (0, 3, 6), (1, 4, 7), (2, 5, 8),
   (0, 4, 8), (2, 4, 6)]

/-- `UltimateBoard`: nine sub-boards, their cached statuses, the forced
next board (or `none` = free choice), the overall status, the player to
move and the incrementally maintained Zobrist hash. -/
structure UltimateBoard where
  boards : List Board
  board_status : List GameResult
  next_board_index : Option Nat
  game_status : GameResult
  current_player : Player
  hash : Nat
deriving DecidableEq, Repr

instance : Inhabited UltimateBoard :=
  ⟨⟨[], [], none, GameResult.Continue, Player.One, 0⟩⟩

/-- `UltimateBoard::new()`: nine empty boards with ids 0..9, all statuses
`Continue`, free choice, player One to move, hash 0. -/
def UltimateBoard.new : UltimateBoard where
  boards := (List.range 9).map (fun i => { boardOne := 0, boardTwo := 0, unique_id := i })
  board_status := List.replicate 9 GameResult.Continue
  next_board_index := none
  game_status := GameResult.Continue
  current_player := Player.One
  hash := 0

/-- The outer double loop of `UltimateBoard::check_if_won`: the first meta
win line whose three sub-board statuses are all `Win(player)` (players
tried in order One, Two). -/
def metaWinAux : List (Nat × Nat × Nat) → List GameResult → Option Player
  | [], _ => none
  | t :: rest, bs =>
    if bs.getD t.1 GameResult.Continue = GameResult.Win Player.One ∧
       bs.getD t.2.1 GameResult.Continue = GameResult.Win Player.One ∧
       bs.getD t.2.2 GameResult.Continue = GameResult.Win Player.One then some Player.One
    else if bs.getD t.1 GameResult.Continue = GameResult.Win Player.Two ∧
       bs.getD t.2.1 GameResult.Continue = GameResult.Win Player.Two ∧
       bs.getD t.2.2 GameResult.Continue = GameResult.Win Player.Two then some Player.Two
    else metaWinAux rest bs

/-- `UltimateBoard::check_if_won` (recomputation of `game_status` from the
sub-board statuses): meta win line, else draw when no sub-board can
continue, else continue. -/
def UltimateBoard.check_if_won (bs : List GameResult) : GameResult :=
  match metaWinAux WIN_POSITIONS bs with
  | some p => GameResult.Win p
  | none =>
    if bs.all (fun s => !(s == GameResult.Continue)) then GameResult.Draw
    else GameResult.Continue

/-- `UltimateBoard::get_possible_moves`: single-board case when a next
board is forced, otherwise the union over the sub-boards whose cached
status is `Continue` (the source zips `boards` with `board_status`,
filters on `Continue` and flat-maps the per-board moves). -/
def UltimateBoard.get_possible_moves (u : UltimateBoard) : List Nat :=
  match u.next_board_index with
  | some index => (u.boards.getD index default).get_possible_moves
  | none =>
    ((u.boards.zip u.board_status).filter
      (fun bs => bs.2 == GameResult.Continue)).flatMap
      (fun bs => bs.1.get_possible_moves)

/-- Offset of the `next_board_index` entries in the Zobrist table
(`ZOBRIST_VALUES_NEXT_BOARD_INDEX_OFFSET = 81 * 2`). -/
def ZOBRIST_NEXT_OFFSET : Nat := 162

/-- `UltimateBoard::make_move`, parameterized by the Zobrist table `Z`.
Panics are modelled by `none`: the game being over, a forced next board
other than `index / 9`, a board index out of bounds (`index ≥ 81`), and
the (unreachable) out-of-range panic of `Board::set`.  The effect order —
mark, hash square, recompute the board status, recompute the game status,
flip the player, un-hash the old forced board, set and hash the new forced
board — follows the source exactly; in particular the status deciding the
new `next_board_index` is read from the already updated status array. -/
def UltimateBoard.make_move (u : UltimateBoard) (Z : Nat → Nat) (index : Nat) :
    Option UltimateBoard :=
  if u.game_status ≠ GameResult.Continue then none
  else
    let board_index := index / 9
    let mismatch : Bool :=
      match u.next_board_index with
      | some next_board_index => next_board_index != board_index
      | none => false
    if mismatch then none
    else if 9 ≤ board_index then none
    else
      let field_index := index % 9
      match (u.boards.getD board_index default).set field_index u.current_player with
      | none => none
      | some board =>
        let hash1 := u.hash ^^^ Z (index * 2 + u.current_player.toNat)
        let board_status := u.board_status.set board_index board.check_if_won
        let boards := u.boards.set board_index board
        let game_status := UltimateBoard.check_if_won board_status
        let current_player := u.current_player.get_opponent
        let hash2 :=
          match u.next_board_index with
          | some next_board_index => hash1 ^^^ Z (next_board_index + ZOBRIST_NEXT_OFFSET)
          | none => hash1
        match board_status.getD field_index GameResult.Continue with
        | GameResult.Continue =>
          some { boards := boards, board_status := board_status,
                 next_board_index := some field_index, game_status := game_status,
                 current_player := current_player,
                 hash := hash2 ^^^ Z (field_index + ZOBRIST_NEXT_OFFSET) }
        | _ =>
          some { boards := boards, board_status := board_status,
                 next_board_index := none, game_status := game_status,
                 current_player := current_player, hash := hash2 }

/-- Play a sequence of moves from a starting state, demanding that each
move is drawn from `get_possible_moves` (the legality discipline of every
search agent in the repository) and that `make_move` completes. -/
def applyMoves (Z : Nat → Nat) (u : UltimateBoard) : List Nat → Option UltimateBoard
  | [] => some u
  | m :: ms =>
    if m ∈ u.get_possible_moves then
      match u.make_move Z m with
      | some u' => applyMoves Z u' ms
      | none => none
    else none

/-! ## Elementary facts about the bit-level helpers

The sub-board bitboards that occur in any run are 9-bit values, so facts
about them can be settled by checking all 512 cases. -/

set_option maxHeartbeats 2000000 in
set_option maxRecDepth 10000 in
/-- On every 9-bit board value, the pop-lowest-bit iterator over the
complement lists exactly the clear bit positions, in increasing order. -/
theorem intoIter_bbNot_eq : ∀ v < 512,
    BitBoard.intoIter (BitBoard.bbNot v) = (List.range 9).filter (fun i => !(v.testBit i)) := by
  decide

set_option maxRecDepth 10000 in
/-- A 9-bit value that is not full has a nonzero complement. -/
theorem bbNot_ne_zero : ∀ v < 512, v ≠ 511 → BitBoard.bbNot v ≠ 0 := by decide

/-- The iterator of a nonzero board value is nonempty. -/
theorem intoIter_ne_nil {v : Nat} (h : v ≠ 0) : BitBoard.intoIter v ≠ [] := by
  simp only [BitBoard.intoIter, popSquaresAux, h, if_false]
  exact List.cons_ne_nil _ _

/-- Round trip internal-to-human-to-internal. -/
theorem fhb_fbh : ∀ i < 9, from_human_to_bit (from_bit_to_human i) = i := by decide

/-- Round trip human-to-internal-to-human. -/
theorem fbh_fhb : ∀ i < 9, from_bit_to_human (from_human_to_bit i) = i := by decide

theorem fhb_lt : ∀ i < 9, from_human_to_bit i < 9 := by decide

theorem fbh_lt : ∀ i < 9, from_bit_to_human i < 9 := by decide

/-! ## The per-board move list -/

/-- A human square (0-8) of a sub-board is empty: neither player's
bitboard has the corresponding internal bit set. -/
def Board.emptyAt (b : Board) (h : Nat) : Prop :=
  ((b.boardOne ||| b.boardTwo).testBit (from_human_to_bit h)) = false

instance (b : Board) (h : Nat) : Decidable (b.emptyAt h) := by
  unfold Board.emptyAt; infer_instance

/-- `Board::get_possible_moves` yields exactly the globally-translated
empty human squares of the board. -/
theorem mem_board_moves {b : Board} (h1 : b.boardOne < 512) (h2 : b.boardTwo < 512)
    {m : Nat} :
    m ∈ b.get_possible_moves ↔ ∃ h, h < 9 ∧ b.emptyAt h ∧ m = h + 9 * b.unique_id := by
  have hu : b.boardOne ||| b.boardTwo < 512 :=
    Nat.bitwise_lt_two_pow (n := 9) h1 h2
  unfold Board.get_possible_moves
  rw [intoIter_bbNot_eq _ hu]
  simp only [List.mem_map, List.mem_filter, List.mem_range]
  constructor
  · rintro ⟨i, ⟨hi9, hbit⟩, rfl⟩
    refine ⟨from_bit_to_human i, fbh_lt i hi9, ?_, rfl⟩
    unfold Board.emptyAt
    rw [fhb_fbh i hi9]
    simpa using hbit
  · rintro ⟨h, h9, hempty, rfl⟩
    refine ⟨from_human_to_bit h, ⟨fhb_lt h h9, ?_⟩, by rw [fbh_fhb h h9]⟩
    unfold Board.emptyAt at hempty
    simpa using hempty

/-- A board whose status is `Continue` is not full. -/
theorem check_continue_not_full {b : Board}
    (h : b.check_if_won = GameResult.Continue) :
    b.boardOne ||| b.boardTwo ≠ 511 := by
  intro hfull
  unfold Board.check_if_won at h
  rcases hw : Board.winAux WIN_POSITIONS_BOARD b with _ | p
  · rw [hw] at h
    simp only [hfull, if_pos rfl] at h
    cases h
  · rw [hw] at h
    cases h

/-- A board with `Continue` status has at least one legal move. -/
theorem board_moves_ne_nil {b : Board} (h1 : b.boardOne < 512) (h2 : b.boardTwo < 512)
    (h : b.check_if_won = GameResult.Continue) :
    b.get_possible_moves ≠ [] := by
  have hu : b.boardOne ||| b.boardTwo < 512 :=
    Nat.bitwise_lt_two_pow (n := 9) h1 h2
  have hne : BitBoard.bbNot (b.boardOne ||| b.boardTwo) ≠ 0 :=
    bbNot_ne_zero _ hu (check_continue_not_full h)
  unfold Board.get_possible_moves
  intro hmap
  exact intoIter_ne_nil hne (List.map_eq_nil_iff.mp hmap)

/-! ## List access helpers -/

theorem getD_set_self {α : Type} {l : List α} {n : Nat} (h : n < l.length) (a d : α) :
    (l.set n a).getD n d = a := by
  rw [List.getD_eq_getElem _ _ (by simpa using h)]
  exact List.getElem_set_self _

theorem getD_set_ne {α : Type} {l : List α} {n k : Nat} (hne : n ≠ k) (a d : α) :
    (l.set n a).getD k d = l.getD k d := by
  by_cases hk : k < l.length
  · rw [List.getD_eq_getElem _ _ (by simpa using hk), List.getD_eq_getElem _ _ hk]
    exact List.getElem_set_ne hne _
  · rw [List.getD_eq_default _ _ (by simpa using Nat.le_of_not_lt hk),
      List.getD_eq_default _ _ (Nat.le_of_not_lt hk)]

theorem getD_range_map {α : Type} (f : Nat → α) {i : Nat} (h : i < 9) (d : α) :
    (((List.range 9).map f).getD i d) = f i := by
  rw [List.getD_eq_getElem _ _ (by simpa using h)]
  simp [h]

/-! ## The reachable-state invariant

All properties maintained by `make_move` along legal play: array lengths,
board ids, 9-bit well-formedness, disjointness of the two players' marks,
the status caches agreeing with recomputation, and the forced next board
pointing at a continuable sub-board. -/

structure StateInv (u : UltimateBoard) : Prop where
  boards_len : u.boards.length = 9
  status_len : u.board_status.length = 9
  ids : ∀ i, i < 9 → (u.boards.getD i default).unique_id = i
  wf1 : ∀ i, i < 9 → (u.boards.getD i default).boardOne < 512
  wf2 : ∀ i, i < 9 → (u.boards.getD i default).boardTwo < 512
  disj : ∀ i, i < 9 →
    ((u.boards.getD i default).boardOne &&& (u.boards.getD i default).boardTwo) = 0
  status_eq : ∀ i, i < 9 →
    u.board_status.getD i GameResult.Continue = (u.boards.getD i default).check_if_won
  game_eq : u.game_status = UltimateBoard.check_if_won u.board_status
  next_lt : ∀ j, u.next_board_index = some j → j < 9
  next_cont : ∀ j, u.next_board_index = some j →
    u.board_status.getD j GameResult.Continue = GameResult.Continue

theorem StateInv_new : StateInv UltimateBoard.new := by
  refine ⟨by decide, by decide, by decide, by decide, by decide, by decide, by decide,
    by decide, ?_, ?_⟩
  · intro j h
    cases h
  · intro j h
    cases h

/-! ## Characterizing the legal moves of an `UltimateBoard` -/

/-- `UltimateBoard::get_possible_moves`, characterized: with a forced next
board `i`, exactly the empty squares of sub-board `i` (translated to
global indices); with free choice, exactly the empty squares of the
sub-boards whose cached status is `Continue`. -/
theorem possible_moves_char {u : UltimateBoard} (hInv : StateInv u) (m : Nat) :
    m ∈ u.get_possible_moves ↔
      match u.next_board_index with
      | some i => ∃ h, h < 9 ∧ (u.boards.getD i default).emptyAt h ∧ m = 9 * i + h
      | none => ∃ i, i < 9 ∧
          u.board_status.getD i GameResult.Continue = GameResult.Continue ∧
          ∃ h, h < 9 ∧ (u.boards.getD i default).emptyAt h ∧ m = 9 * i + h := by
  obtain ⟨hbl, hsl, hids, hwf1, hwf2, _, _, _, hnl, hnc⟩ := hInv
  unfold UltimateBoard.get_possible_moves
  rcases hnext : u.next_board_index with _ | i
  · simp only
    constructor
    · intro hm
      rcases List.mem_flatMap.mp hm with ⟨x, hxmem, hmx⟩
      rcases List.mem_filter.mp hxmem with ⟨hxzip, hxcont⟩
      rcases List.mem_iff_getElem.mp hxzip with ⟨k, hk, hxeq⟩
      have hklen : k < 9 := by
        rw [List.length_zip, hbl, hsl] at hk
        omega
      have hx1 : x.1 = u.boards.getD k default := by
        rw [← hxeq, List.getElem_zip, List.getD_eq_getElem _ _ (by omega)]
      have hx2 : x.2 = u.board_status.getD k GameResult.Continue := by
        rw [← hxeq, List.getElem_zip, List.getD_eq_getElem _ _ (by omega)]
      rw [hx1] at hmx
      rcases (mem_board_moves (hwf1 k hklen) (hwf2 k hklen)).mp hmx with
        ⟨h, h9, hempty, hmeq⟩
      refine ⟨k, hklen, ?_, h, h9, hempty, ?_⟩
      · rw [← hx2]
        simpa using hxcont
      · rw [hmeq, hids k hklen]
        omega
    · rintro ⟨i, hi9, hcont, h, h9, hempty, rfl⟩
      apply List.mem_flatMap.mpr
      refine ⟨(u.boards.getD i default, u.board_status.getD i GameResult.Continue), ?_, ?_⟩
      · apply List.mem_filter.mpr
        constructor
        · apply List.mem_iff_getElem.mpr
          refine ⟨i, ?_, ?_⟩
          · rw [List.length_zip, hbl, hsl]
            omega
          · rw [List.getElem_zip]
            rw [List.getD_eq_getElem _ _ (by omega), List.getD_eq_getElem _ _ (by omega)]
        · simpa using hcont
      · apply (mem_board_moves (hwf1 i hi9) (hwf2 i hi9)).mpr
        refine ⟨h, h9, hempty, ?_⟩
        rw [hids i hi9]
        omega
  · simp only
    have hi9 : i < 9 := hnl i hnext
    rw [mem_board_moves (hwf1 i hi9) (hwf2 i hi9)]
    constructor
    · rintro ⟨h, h9, hempty, rfl⟩
      exact ⟨h, h9, hempty, by rw [hids i hi9]; omega⟩
    · rintro ⟨h, h9, hempty, rfl⟩
      exact ⟨h, h9, hempty, by rw [hids i hi9]; omega⟩

/-! ## The successful path of `make_move` -/

/-- The unconditional effect of `Board::set` (the caller has already
bounded the index): OR the translated bit into the player's bitboard. -/
def Board.setBit (b : Board) (index : Nat) (player : Player) : Board :=
  match player with
  | .One => { b with boardOne := b.boardOne ||| (1 <<< from_human_to_bit index) }
  | .Two => { b with boardTwo := b.boardTwo ||| (1 <<< from_human_to_bit index) }

theorem Board.set_eq_setBit (b : Board) (index : Nat) (p : Player) (h : index ≤ 8) :
    b.set index p = some (b.setBit index p) := by
  unfold Board.set Board.setBit
  rw [if_neg (by omega)]
  cases p <;> rfl

theorem Board.setBit_unique_id (b : Board) (i : Nat) (p : Player) :
    (b.setBit i p).unique_id = b.unique_id := by
  cases p <;> rfl

/-- The state produced by a successful `make_move` call, as a total
function of the previous state (all the guard conditions hold on legal
moves; `make_move_eq` below connects the two). -/
def mkStep (u : UltimateBoard) (Z : Nat → Nat) (index : Nat) : UltimateBoard :=
  let board_index := index / 9
  let field_index := index % 9
  let board := (u.boards.getD board_index default).setBit field_index u.current_player
  let hash1 := u.hash ^^^ Z (index * 2 + u.current_player.toNat)
  let board_status := u.board_status.set board_index board.check_if_won
  let boards := u.boards.set board_index board
  let game_status := UltimateBoard.check_if_won board_status
  let current_player := u.current_player.get_opponent
  let hash2 :=
    match u.next_board_index with
    | some j => hash1 ^^^ Z (j + ZOBRIST_NEXT_OFFSET)
    | none => hash1
  match board_status.getD field_index GameResult.Continue with
  | GameResult.Continue =>
    { boards := boards, board_status := board_status,
      next_board_index := some field_index, game_status := game_status,
      current_player := current_player,
      hash := hash2 ^^^ Z (field_index + ZOBRIST_NEXT_OFFSET) }
  | _ =>
    { boards := boards, board_status := board_status,
      next_board_index := none, game_status := game_status,
      current_player := current_player, hash := hash2 }

/-- A completed `make_move` implies the game was still running. -/
theorem make_move_continue_of_some {u u' : UltimateBoard} {Z : Nat → Nat} {m : Nat}
    (h : u.make_move Z m = some u') : u.game_status = GameResult.Continue := by
  by_contra hC
  unfold UltimateBoard.make_move at h
  rw [if_pos hC] at h
  cases h

/-- Commuting `some` with the status match in `make_move`. -/
theorem option_match_comm {α : Type} (s : GameResult) (A B : α) :
    (match s with | GameResult.Continue => some A | _ => some B) =
      some (match s with | GameResult.Continue => A | _ => B) := by
  cases s <;> rfl

/-- On the successful path (running game, compatible forced board, board
index in range) `make_move` computes exactly `mkStep`. -/
theorem make_move_eq {u : UltimateBoard} {Z : Nat → Nat} {m : Nat}
    (hC : u.game_status = GameResult.Continue)
    (hnext : ∀ j, u.next_board_index = some j → j = m / 9) (hbi : m / 9 < 9) :
    u.make_move Z m = some (mkStep u Z m) := by
  have hset : (u.boards.getD (m / 9) default).set (m % 9) u.current_player =
      some ((u.boards.getD (m / 9) default).setBit (m % 9) u.current_player) :=
    Board.set_eq_setBit _ _ _ (by omega)
  have h9 : ¬ (9 ≤ m / 9) := by omega
  unfold UltimateBoard.make_move mkStep
  rcases hn : u.next_board_index with _ | j
  · simp only [hC, ne_eq, not_true_eq_false, if_false, Bool.false_eq_true, hset, h9]
    exact option_match_comm _ _ _
  · have hj : j = m / 9 := hnext j hn
    subst hj
    simp only [hC, ne_eq, not_true_eq_false, if_false, bne_self_eq_false, Bool.false_eq_true,
      hset, h9]
    exact option_match_comm _ _ _

/-- Facts about any move drawn from `get_possible_moves` of an invariant
state: the target sub-board exists and may still be continued, the target
square is empty, and a forced next board agrees with the target. -/
theorem mem_moves_spec {u : UltimateBoard} {m : Nat} (hInv : StateInv u)
    (hm : m ∈ u.get_possible_moves) :
    m / 9 < 9 ∧
    u.board_status.getD (m / 9) GameResult.Continue = GameResult.Continue ∧
    (u.boards.getD (m / 9) default).emptyAt (m % 9) ∧
    (∀ j, u.next_board_index = some j → j = m / 9) := by
  have hchar := (possible_moves_char hInv m).mp hm
  rcases hn : u.next_board_index with _ | i <;> rw [hn] at hchar <;> simp only at hchar
  · rcases hchar with ⟨i, hi9, hcont, h, h9, hempty, rfl⟩
    have hd : (9 * i + h) / 9 = i := by omega
    have hm9 : (9 * i + h) % 9 = h := by omega
    rw [hd, hm9]
    exact ⟨hi9, hcont, hempty, fun j hj => by cases hj⟩
  · rcases hchar with ⟨h, h9, hempty, rfl⟩
    have hi9 := hInv.next_lt i hn
    have hd : (9 * i + h) / 9 = i := by omega
    have hm9 : (9 * i + h) % 9 = h := by omega
    rw [hd, hm9]
    refine ⟨hi9, hInv.next_cont i hn, hempty, fun j hj => ?_⟩
    cases hj
    rfl


/-! ## Preservation of the invariant -/

theorem land_lor_two_pow_eq_zero {x y t : Nat} (hd : x &&& y = 0)
    (hy : y.testBit t = false) : (x ||| 2 ^ t) &&& y = 0 := by
  apply Nat.zero_of_testBit_eq_false
  intro i
  rw [Nat.testBit_land, Nat.testBit_lor]
  by_cases hit : i = t
  · subst hit
    rw [hy, Bool.and_false]
  · rw [Nat.testBit_two_pow_of_ne (fun h => hit h.symm), Bool.or_false]
    rw [← Nat.testBit_land, hd, Nat.zero_testBit]

theorem lor_two_pow_testBit_ne {x t i : Nat} (h : i ≠ t) :
    (x ||| 2 ^ t).testBit i = x.testBit i := by
  rw [Nat.testBit_lor, Nat.testBit_two_pow_of_ne (fun hh => h hh.symm), Bool.or_false]

/-- Setting a square ORs the corresponding bit into the union of the two
player bitboards, whichever player moves. -/
theorem setBit_union (b : Board) (fi : Nat) (p : Player) :
    (b.setBit fi p).boardOne ||| (b.setBit fi p).boardTwo =
      (b.boardOne ||| b.boardTwo) ||| 2 ^ from_human_to_bit fi := by
  cases p
  · show (b.boardOne ||| 1 <<< from_human_to_bit fi) ||| b.boardTwo = _
    rw [Nat.one_shiftLeft, Nat.lor_assoc, Nat.lor_comm (2 ^ _) b.boardTwo, ← Nat.lor_assoc]
  · show b.boardOne ||| (b.boardTwo ||| 1 <<< from_human_to_bit fi) = _
    rw [Nat.one_shiftLeft, Nat.lor_assoc]

/-- The invariant fields that do not involve `next_board_index` or the
hash, for the updated state produced by a legal move. -/
theorem StateInv_core {u : UltimateBoard} {m : Nat} (hInv : StateInv u)
    (hm : m ∈ u.get_possible_moves) (nxt : Option Nat) (hsh : Nat)
    (hn : nxt = none ∨
      (nxt = some (m % 9) ∧
        (u.board_status.set (m / 9)
            ((u.boards.getD (m / 9) default).setBit (m % 9) u.current_player).check_if_won).getD
          (m % 9) GameResult.Continue = GameResult.Continue)) :
    StateInv
      { boards := u.boards.set (m / 9)
          ((u.boards.getD (m / 9) default).setBit (m % 9) u.current_player),
        board_status := u.board_status.set (m / 9)
          ((u.boards.getD (m / 9) default).setBit (m % 9) u.current_player).check_if_won,
        next_board_index := nxt,
        game_status := UltimateBoard.check_if_won
          (u.board_status.set (m / 9)
            ((u.boards.getD (m / 9) default).setBit (m % 9) u.current_player).check_if_won),
        current_player := u.current_player.get_opponent,
        hash := hsh } := by
  obtain ⟨hbi9, hcontst, hempty, hnextc⟩ := mem_moves_spec hInv hm
  have hfi9 : m % 9 < 9 := Nat.mod_lt _ (by norm_num)
  have ht9 : from_human_to_bit (m % 9) < 9 := fhb_lt _ hfi9
  have hpow : (2 : Nat) ^ from_human_to_bit (m % 9) < 512 :=
    Nat.pow_lt_pow_right (by norm_num) ht9
  have hblen := hInv.boards_len
  have hslen := hInv.status_len
  have hemp12 : (u.boards.getD (m / 9) default).boardOne.testBit (from_human_to_bit (m % 9))
      = false ∧
      (u.boards.getD (m / 9) default).boardTwo.testBit (from_human_to_bit (m % 9)) = false := by
    have h2 := hempty
    unfold Board.emptyAt at h2
    rw [Nat.testBit_lor] at h2
    exact Bool.or_eq_false_iff.mp h2
  have hb'id : ((u.boards.getD (m / 9) default).setBit (m % 9) u.current_player).unique_id
      = m / 9 := by
    rw [Board.setBit_unique_id]
    exact hInv.ids _ hbi9
  have hb'1 : ((u.boards.getD (m / 9) default).setBit (m % 9) u.current_player).boardOne
      < 512 := by
    cases hp : u.current_player <;> simp only [Board.setBit, Nat.one_shiftLeft]
    · exact Nat.bitwise_lt_two_pow (n := 9) (hInv.wf1 _ hbi9) hpow
    · exact hInv.wf1 _ hbi9
  have hb'2 : ((u.boards.getD (m / 9) default).setBit (m % 9) u.current_player).boardTwo
      < 512 := by
    cases hp : u.current_player <;> simp only [Board.setBit, Nat.one_shiftLeft]
    · exact hInv.wf2 _ hbi9
    · exact Nat.bitwise_lt_two_pow (n := 9) (hInv.wf2 _ hbi9) hpow
  have hb'disj : ((u.boards.getD (m / 9) default).setBit (m % 9) u.current_player).boardOne
      &&& ((u.boards.getD (m / 9) default).setBit (m % 9) u.current_player).boardTwo = 0 := by
    cases hp : u.current_player <;> simp only [Board.setBit, Nat.one_shiftLeft]
    · exact land_lor_two_pow_eq_zero (hInv.disj _ hbi9) hemp12.2
    · rw [Nat.land_comm]
      exact land_lor_two_pow_eq_zero (by rw [Nat.land_comm]; exact hInv.disj _ hbi9) hemp12.1
  refine ⟨?_, ?_, ?_, ?_, ?_, ?_, ?_, rfl, ?_, ?_⟩
  · simp only [List.length_set, hblen]
  · simp only [List.length_set, hslen]
  · intro i hi
    by_cases hieq : m / 9 = i
    · subst hieq
      rw [getD_set_self (by omega) _ _]
      exact hb'id
    · rw [getD_set_ne hieq]
      exact hInv.ids i hi
  · intro i hi
    by_cases hieq : m / 9 = i
    · subst hieq
      rw [getD_set_self (by omega) _ _]
      exact hb'1
    · rw [getD_set_ne hieq]
      exact hInv.wf1 i hi
  · intro i hi
    by_cases hieq : m / 9 = i
    · subst hieq
      rw [getD_set_self (by omega) _ _]
      exact hb'2
    · rw [getD_set_ne hieq]
      exact hInv.wf2 i hi
  · intro i hi
    by_cases hieq : m / 9 = i
    · subst hieq
      rw [getD_set_self (by omega) _ _]
      exact hb'disj
    · rw [getD_set_ne hieq]
      exact hInv.disj i hi
  · intro i hi
    by_cases hieq : m / 9 = i
    · subst hieq
      rw [getD_set_self (by omega) _ _, getD_set_self (by omega) _ _]
    · rw [getD_set_ne hieq, getD_set_ne hieq]
      exact hInv.status_eq i hi
  · intro j hj
    rcases hn with rfl | ⟨rfl, _⟩
    · cases hj
    · cases hj
      omega
  · intro j hj
    rcases hn with rfl | ⟨rfl, hcont⟩
    · cases hj
    · cases hj
      exact hcont

theorem StateInv_mkStep {u : UltimateBoard} {m : Nat} (hInv : StateInv u)
    (hm : m ∈ u.get_possible_moves) (Z : Nat → Nat) : StateInv (mkStep u Z m) := by
  unfold mkStep
  split <;> dsimp only <;> split
  case _ heq => exact StateInv_core hInv hm _ _ (Or.inr ⟨rfl, heq⟩)
  case _ x heq => exact StateInv_core hInv hm _ _ (Or.inl rfl)
  case _ heq => exact StateInv_core hInv hm _ _ (Or.inr ⟨rfl, heq⟩)
  case _ x heq => exact StateInv_core hInv hm _ _ (Or.inl rfl)

/-! ## A running game always has a legal move -/

/-- If the recomputed overall status is `Continue`, some sub-board status
is `Continue`. -/
theorem game_continue_exists {bs : List GameResult}
    (h : UltimateBoard.check_if_won bs = GameResult.Continue) :
    ∃ s ∈ bs, s = GameResult.Continue := by
  unfold UltimateBoard.check_if_won at h
  rcases hw : metaWinAux WIN_POSITIONS bs with _ | p
  · rw [hw] at h
    simp only at h
    by_cases hall : (bs.all fun s => !(s == GameResult.Continue)) = true
    · rw [if_pos hall] at h
      cases h
    · rw [List.all_eq_true] at hall
      push_neg at hall
      rcases hall with ⟨x, hx, hxval⟩
      refine ⟨x, hx, ?_⟩
      simpa using hxval
  · rw [hw] at h
    cases h

/-- A `Continue` sub-board has an empty square. -/
theorem board_empty_square {b : Board} (h1 : b.boardOne < 512) (h2 : b.boardTwo < 512)
    (hc : b.check_if_won = GameResult.Continue) :
    ∃ h, h < 9 ∧ b.emptyAt h := by
  have hne := board_moves_ne_nil h1 h2 hc
  rcases List.exists_mem_of_ne_nil _ hne with ⟨mv, hmv⟩
  rcases (mem_board_moves h1 h2).mp hmv with ⟨h, h9, hempty, _⟩
  exact ⟨h, h9, hempty⟩

/-- `get_possible_moves` of an invariant state with overall status
`Continue` is nonempty. -/
theorem moves_ne_nil {u : UltimateBoard} (hInv : StateInv u)
    (hC : u.game_status = GameResult.Continue) : u.get_possible_moves ≠ [] := by
  rcases hn : u.next_board_index with _ | i
  · have hmeta : UltimateBoard.check_if_won u.board_status = GameResult.Continue := by
      rw [← hInv.game_eq]; exact hC
    rcases game_continue_exists hmeta with ⟨s, hsmem, rfl⟩
    rcases List.mem_iff_getElem.mp hsmem with ⟨k, hk, hks⟩
    have hk9 : k < 9 := by rw [hInv.status_len] at hk; omega
    have hcont : u.board_status.getD k GameResult.Continue = GameResult.Continue := by
      rw [List.getD_eq_getElem _ _ hk, hks]
    have hcheck : (u.boards.getD k default).check_if_won = GameResult.Continue := by
      rw [← hInv.status_eq k hk9]; exact hcont
    rcases board_empty_square (hInv.wf1 k hk9) (hInv.wf2 k hk9) hcheck with ⟨h, h9, hempty⟩
    apply List.ne_nil_of_mem (a := 9 * k + h)
    rw [possible_moves_char hInv, hn]
    exact ⟨k, hk9, hcont, h, h9, hempty, rfl⟩
  · have hi9 : i < 9 := hInv.next_lt i hn
    have hcheck : (u.boards.getD i default).check_if_won = GameResult.Continue := by
      rw [← hInv.status_eq i hi9]; exact hInv.next_cont i hn
    rcases board_empty_square (hInv.wf1 i hi9) (hInv.wf2 i hi9) hcheck with ⟨h, h9, hempty⟩
    apply List.ne_nil_of_mem (a := 9 * i + h)
    rw [possible_moves_char hInv, hn]
    exact ⟨h, h9, hempty, rfl⟩

/-- The invariant holds after any legal play sequence from an invariant
start state. -/
theorem StateInv_applyMoves {Z : Nat → Nat} :
    ∀ (ms : List Nat) (u0 u : UltimateBoard), StateInv u0 →
      applyMoves Z u0 ms = some u → StateInv u := by
  intro ms
  induction ms with
  | nil =>
    intro u0 u h0 happ
    unfold applyMoves at happ
    cases happ
    exact h0
  | cons m rest ih =>
    intro u0 u h0 happ
    unfold applyMoves at happ
    by_cases hmem : m ∈ u0.get_possible_moves
    · rw [if_pos hmem] at happ
      rcases hmk : u0.make_move Z m with _ | u1 <;> rw [hmk] at happ
      · cases happ
      · have hC := make_move_continue_of_some hmk
        have hspec := mem_moves_spec h0 hmem
        have hmk' : u0.make_move Z m = some (mkStep u0 Z m) :=
          make_move_eq hC hspec.2.2.2 hspec.1
        rw [hmk'] at hmk
        cases hmk
        exact ih _ _ (StateInv_mkStep h0 hmem Z) happ
    · rw [if_neg hmem] at happ
      cases happ

/-! ## The from-scratch Zobrist recomputation -/

/-- The Zobrist contribution of the forced next board: the entry at
`next_board_index + 162` when a board is forced, nothing otherwise. -/
def nextC (Z : Nat → Nat) : Option Nat → Nat
  | some j => Z (j + ZOBRIST_NEXT_OFFSET)
  | none => 0

/-- The Zobrist contribution of global square `g` in a board list: the
entry of each (square, player) pair actually marked.  Entry indices follow
`make_move`: `g * 2 + player`. -/
def markedTermL (Z : Nat → Nat) (bl : List Board) (g : Nat) : Nat :=
  (if (bl.getD (g / 9) default).boardOne.testBit (from_human_to_bit (g % 9)) then Z (g * 2)
   else 0) ^^^
  (if (bl.getD (g / 9) default).boardTwo.testBit (from_human_to_bit (g % 9)) then Z (g * 2 + 1)
   else 0)

/-- XOR of the Zobrist entries of every marked (square, player) pair. -/
def marksHashL (Z : Nat → Nat) (bl : List Board) : Nat :=
  (List.range 81).foldr (fun g acc => markedTermL Z bl g ^^^ acc) 0

/-- The from-scratch Zobrist recomputation of a state's hash: the XOR over
all marked (square, player) pairs, plus the forced-next-board entry. -/
def specHash (Z : Nat → Nat) (u : UltimateBoard) : Nat :=
  marksHashL Z u.boards ^^^ nextC Z u.next_board_index

theorem xor_rot (a b c : Nat) : (a ^^^ b) ^^^ c = (a ^^^ c) ^^^ b := by
  rw [Nat.xor_assoc, Nat.xor_comm b c, ← Nat.xor_assoc]

theorem foldr_xor_congr {l : List Nat} {f g : Nat → Nat} (h : ∀ y ∈ l, f y = g y) :
    l.foldr (fun x acc => f x ^^^ acc) 0 = l.foldr (fun x acc => g x ^^^ acc) 0 := by
  induction l with
  | nil => rfl
  | cons a l ih =>
    simp only [List.foldr_cons]
    rw [h a (List.mem_cons_self a l), ih (fun y hy => h y (List.mem_cons_of_mem a hy))]

theorem foldr_xor_update {l : List Nat} {f f' : Nat → Nat} {x c : Nat}
    (hl : l.Nodup) (hx : x ∈ l) (hch : f' x = f x ^^^ c)
    (hsame : ∀ y ∈ l, y ≠ x → f' y = f y) :
    l.foldr (fun g acc => f' g ^^^ acc) 0 = (l.foldr (fun g acc => f g ^^^ acc) 0) ^^^ c := by
  induction l with
  | nil => cases hx
  | cons a l ih =>
    rcases List.nodup_cons.mp hl with ⟨hanotin, hlnodup⟩
    simp only [List.foldr_cons]
    rcases List.mem_cons.mp hx with rfl | hxl
    · rw [hch, foldr_xor_congr (f := f') (g := f)
        (fun y hy => hsame y (List.mem_cons_of_mem _ hy) (fun hyx => hanotin (hyx ▸ hy)))]
      rw [Nat.xor_assoc, Nat.xor_comm c _, ← Nat.xor_assoc]
    · have hax : a ≠ x := fun h => hanotin (h ▸ hxl)
      rw [hsame a (List.mem_cons_self _ _) hax,
        ih hlnodup hxl (fun y hy hyx => hsame y (List.mem_cons_of_mem _ hy) hyx),
        Nat.xor_assoc]

/-- Injectivity of the human-to-bit translation on distinct squares. -/
theorem fhb_ne : ∀ a < 9, ∀ b < 9, a ≠ b → from_human_to_bit a ≠ from_human_to_bit b := by
  decide

/-- Marking square `m` for the current player XORs exactly that (square,
player) Zobrist entry into the marks hash. -/
theorem marksHashL_set {u : UltimateBoard} {m : Nat} (hInv : StateInv u)
    (hm : m ∈ u.get_possible_moves) (Z : Nat → Nat) :
    marksHashL Z (u.boards.set (m / 9)
        ((u.boards.getD (m / 9) default).setBit (m % 9) u.current_player)) =
      marksHashL Z u.boards ^^^ Z (m * 2 + u.current_player.toNat) := by
  obtain ⟨hbi9, hcontst, hempty, hnextc⟩ := mem_moves_spec hInv hm
  have hfi9 : m % 9 < 9 := Nat.mod_lt _ (by norm_num)
  have hm81 : m < 81 := by omega
  have hemp12 : (u.boards.getD (m / 9) default).boardOne.testBit (from_human_to_bit (m % 9))
      = false ∧
      (u.boards.getD (m / 9) default).boardTwo.testBit (from_human_to_bit (m % 9)) = false := by
    have h2 := hempty
    unfold Board.emptyAt at h2
    rw [Nat.testBit_lor] at h2
    exact Bool.or_eq_false_iff.mp h2
  unfold marksHashL
  apply foldr_xor_update (List.nodup_range 81) (List.mem_range.mpr hm81)
  · unfold markedTermL
    rw [getD_set_self (by rw [hInv.boards_len]; omega) _ _]
    rw [List.getD_eq_getElem?_getD] at hemp12
    cases hp : u.current_player <;> simp only [Board.setBit] <;>
      simp [Nat.one_shiftLeft, Nat.testBit_lor, Nat.testBit_two_pow_self,
        hemp12.1, hemp12.2, Player.toNat]
  · intro y hy hyx
    have hy81 : y < 81 := List.mem_range.mp hy
    unfold markedTermL
    by_cases hq : y / 9 = m / 9
    · have hfi : y % 9 ≠ m % 9 := by
        intro heq
        exact hyx (by omega)
      have hbit : from_human_to_bit (y % 9) ≠ from_human_to_bit (m % 9) :=
        fhb_ne _ (Nat.mod_lt _ (by norm_num)) _ (Nat.mod_lt _ (by norm_num)) hfi
      rw [hq, getD_set_self (by rw [hInv.boards_len]; omega) _ _]
      cases hp : u.current_player <;> simp only [Board.setBit] <;>
        simp only [Nat.one_shiftLeft, lor_two_pow_testBit_ne hbit]
    · rw [getD_set_ne (fun h => hq h.symm)]

theorem mkStep_boards (u : UltimateBoard) (Z : Nat → Nat) (m : Nat) :
    (mkStep u Z m).boards =
      u.boards.set (m / 9) ((u.boards.getD (m / 9) default).setBit (m % 9) u.current_player) := by
  unfold mkStep
  dsimp only
  split <;> rfl

/-- The `next_board_index` / `hash` outcome of a step: either the played
sub-board can be continued (forced board set and hashed in) or not (no
forced board, no extra hash term).  In both cases the (square, player)
entry and the removal of the previous forced-board entry are applied. -/
theorem mkStep_next_hash (u : UltimateBoard) (Z : Nat → Nat) (m : Nat) :
    ((mkStep u Z m).next_board_index = some (m % 9) ∧
      (mkStep u Z m).hash =
        ((u.hash ^^^ Z (m * 2 + u.current_player.toNat)) ^^^ nextC Z u.next_board_index) ^^^
          Z (m % 9 + ZOBRIST_NEXT_OFFSET)) ∨
    ((mkStep u Z m).next_board_index = none ∧
      (mkStep u Z m).hash =
        (u.hash ^^^ Z (m * 2 + u.current_player.toNat)) ^^^ nextC Z u.next_board_index) := by
  unfold mkStep
  dsimp only
  rcases hn : u.next_board_index with _ | j <;> split
  · left
    refine ⟨rfl, ?_⟩
    show _ ^^^ _ = _
    rw [nextC, Nat.xor_zero]
  · right
    refine ⟨rfl, ?_⟩
    show _ = _
    rw [nextC, Nat.xor_zero]
  · left
    exact ⟨rfl, rfl⟩
  · right
    exact ⟨rfl, rfl⟩

/-- One legal move preserves the hash invariant. -/
theorem specHash_mkStep {u : UltimateBoard} {m : Nat} (hInv : StateInv u)
    (hm : m ∈ u.get_possible_moves) (Z : Nat → Nat)
    (hhash : u.hash = specHash Z u) : (mkStep u Z m).hash = specHash Z (mkStep u Z m) := by
  have hmarks := marksHashL_set hInv hm Z
  rcases mkStep_next_hash u Z m with ⟨hnext, hhash'⟩ | ⟨hnext, hhash'⟩ <;>
    rw [specHash, mkStep_boards, hmarks, hnext, hhash', hhash, specHash] <;>
    rw [xor_rot (marksHashL Z u.boards) (nextC Z u.next_board_index)
      (Z (m * 2 + u.current_player.toNat)), Nat.xor_cancel_right]
  all_goals simp only [nextC, Nat.xor_zero]

/-- The empty board hashes to 0 under the from-scratch recomputation. -/
theorem specHash_new (Z : Nat → Nat) : specHash Z UltimateBoard.new = 0 := by
  rw [specHash]
  have h1 : marksHashL Z UltimateBoard.new.boards = 0 := by
    rw [marksHashL]
    rw [foldr_xor_congr (g := fun _ => 0)]
    · induction (List.range 81) with
      | nil => rfl
      | cons a l ih =>
        simp only [List.foldr_cons]
        rw [Nat.zero_xor]
        exact ih
    · intro y hy
      have hy81 : y < 81 := List.mem_range.mp hy
      have hq : y / 9 < 9 := by omega
      have hgd : (UltimateBoard.new.boards).getD (y / 9) default =
          { boardOne := 0, boardTwo := 0, unique_id := y / 9 } := by
        show (((List.range 9).map fun i =>
          ({ boardOne := 0, boardTwo := 0, unique_id := i } : Board)).getD (y / 9) default) = _
        rw [getD_range_map _ hq]
      rw [markedTermL, hgd]
      simp [Nat.zero_testBit]
  rw [h1, show UltimateBoard.new.next_board_index = none from rfl]
  simp only [nextC, Nat.xor_zero]

/-- The hash invariant holds along every legal play sequence. -/
theorem hash_applyMoves {Z : Nat → Nat} :
    ∀ (ms : List Nat) (u0 u : UltimateBoard), StateInv u0 → u0.hash = specHash Z u0 →
      applyMoves Z u0 ms = some u → u.hash = specHash Z u := by
  intro ms
  induction ms with
  | nil =>
    intro u0 u h0 hh happ
    unfold applyMoves at happ
    cases happ
    exact hh
  | cons m rest ih =>
    intro u0 u h0 hh happ
    unfold applyMoves at happ
    by_cases hmem : m ∈ u0.get_possible_moves
    · rw [if_pos hmem] at happ
      rcases hmk : u0.make_move Z m with _ | u1 <;> rw [hmk] at happ
      · cases happ
      · have hC := make_move_continue_of_some hmk
        have hspec := mem_moves_spec h0 hmem
        have hmk' : u0.make_move Z m = some (mkStep u0 Z m) :=
          make_move_eq hC hspec.2.2.2 hspec.1
        rw [hmk'] at hmk
        cases hmk
        exact ih _ _ (StateInv_mkStep h0 hmem Z) (specHash_mkStep h0 hmem Z hh) happ
    · rw [if_neg hmem] at happ
      cases happ

/-! ## Playout termination (`MonteCarloTreeAgent::playout`) -/

/-- The playout loop of the MCTS agent: while the game continues, pick an
element of `get_possible_moves` (the uniform random draw is modelled by an
arbitrary choice function reduced modulo the list length) and apply it.
The loop is run with explicit fuel; the source loop has no bound, and the
termination theorem shows fuel 81 always suffices.  The `none` arm of
`make_move` (a panic) is unreachable on this path and modelled as
stopping. -/
def playoutRun (Z : Nat → Nat) (choose : UltimateBoard → Nat) : Nat → UltimateBoard → UltimateBoard
  | 0, u => u
  | fuel + 1, u =>
    if u.game_status = GameResult.Continue then
      let possible_moves := u.get_possible_moves
      let next_move := possible_moves.getD (choose u % possible_moves.length) 0
      match u.make_move Z next_move with
      | some u' => playoutRun Z choose fuel u'
      | none => u
    else u

/-- The number of empty squares of the whole meta-board. -/
def emptyCount (u : UltimateBoard) : Nat :=
  (List.range 81).countP (fun g => decide ((u.boards.getD (g / 9) default).emptyAt (g % 9)))

theorem countP_congr2 {l : List Nat} {f g : Nat → Bool} (h : ∀ y ∈ l, f y = g y) :
    l.countP f = l.countP g := by
  induction l with
  | nil => rfl
  | cons a l ih =>
    rw [List.countP_cons, List.countP_cons, h a (List.mem_cons_self _ _),
      ih (fun y hy => h y (List.mem_cons_of_mem _ hy))]

theorem countP_update {l : List Nat} {f f' : Nat → Bool} {x : Nat} (hl : l.Nodup) (hx : x ∈ l)
    (hfx : f x = true) (hfx' : f' x = false) (hsame : ∀ y ∈ l, y ≠ x → f' y = f y) :
    l.countP f' + 1 = l.countP f := by
  induction l with
  | nil => cases hx
  | cons a l ih =>
    rcases List.nodup_cons.mp hl with ⟨hanotin, hlnodup⟩
    rw [List.countP_cons, List.countP_cons]
    rcases List.mem_cons.mp hx with rfl | hxl
    · rw [hfx, hfx',
        countP_congr2 (fun y hy => hsame y (List.mem_cons_of_mem _ hy)
          (fun hyx => hanotin (hyx ▸ hy)))]
      simp
    · have hax : a ≠ x := fun h => hanotin (h ▸ hxl)
      rw [hsame a (List.mem_cons_self _ _) hax,
        ← ih hlnodup hxl (fun y hy hyx => hsame y (List.mem_cons_of_mem _ hy) hyx)]
      omega

/-- A legal move marks a previously-empty square: the number of empty
squares strictly decreases (by exactly one). -/
theorem emptyCount_mkStep {u : UltimateBoard} {m : Nat} (hInv : StateInv u)
    (hm : m ∈ u.get_possible_moves) (Z : Nat → Nat) :
    emptyCount (mkStep u Z m) + 1 = emptyCount u := by
  obtain ⟨hbi9, hcontst, hempty, hnextc⟩ := mem_moves_spec hInv hm
  have hfi9 : m % 9 < 9 := Nat.mod_lt _ (by norm_num)
  have hm81 : m < 81 := by omega
  unfold emptyCount
  apply countP_update (List.nodup_range 81) (List.mem_range.mpr hm81)
  · simpa using hempty
  · rw [mkStep_boards, getD_set_self (by rw [hInv.boards_len]; omega) _ _]
    simp only [decide_eq_false_iff_not]
    unfold Board.emptyAt
    rw [setBit_union, Nat.testBit_lor, Nat.testBit_two_pow_self, Bool.or_true]
    simp
  · intro y hy hyx
    have hy81 : y < 81 := List.mem_range.mp hy
    rw [mkStep_boards]
    by_cases hq : y / 9 = m / 9
    · have hfi : y % 9 ≠ m % 9 := by
        intro heq
        exact hyx (by omega)
      have hbit : from_human_to_bit (y % 9) ≠ from_human_to_bit (m % 9) :=
        fhb_ne _ (Nat.mod_lt _ (by norm_num)) _ (Nat.mod_lt _ (by norm_num)) hfi
      rw [hq, getD_set_self (by rw [hInv.boards_len]; omega) _ _]
      have hemp_iff : ((u.boards.getD (m / 9) default).setBit (m % 9) u.current_player).emptyAt
          (y % 9) ↔ (u.boards.getD (m / 9) default).emptyAt (y % 9) := by
        unfold Board.emptyAt
        rw [setBit_union, lor_two_pow_testBit_ne hbit]
      simp only [decide_eq_decide]
      exact hemp_iff
    · rw [getD_set_ne (fun h => hq h.symm)]

/-- With no empty square left on any sub-board, the game cannot be in the
`Continue` state (a full board is a draw or a win). -/
theorem emptyCount_zero_game_over {u : UltimateBoard} (hInv : StateInv u)
    (h0 : emptyCount u = 0) : u.game_status ≠ GameResult.Continue := by
  intro hC
  rcases List.exists_mem_of_ne_nil _ (moves_ne_nil hInv hC) with ⟨m, hm⟩
  obtain ⟨hbi9, _, hempty, _⟩ := mem_moves_spec hInv hm
  have hm81 : m < 81 := by
    have : m % 9 < 9 := Nat.mod_lt _ (by norm_num)
    omega
  have hpos : 0 < emptyCount u := by
    rw [emptyCount]
    apply List.countP_pos_iff.mpr
    exact ⟨m, List.mem_range.mpr hm81, by simpa using hempty⟩
  omega

theorem chosen_mem {u : UltimateBoard} (h : u.get_possible_moves ≠ []) (k : Nat) :
    u.get_possible_moves.getD (k % u.get_possible_moves.length) 0 ∈ u.get_possible_moves := by
  have hlen : 0 < u.get_possible_moves.length := List.length_pos.mpr h
  rw [List.getD_eq_getElem _ _ (Nat.mod_lt _ hlen)]
  exact List.getElem_mem _

/-- The playout loop reaches a decided game given fuel at least the number
of empty squares. -/
theorem playoutRun_game_over {Z : Nat → Nat} {choose : UltimateBoard → Nat} :
    ∀ (fuel : Nat) (u : UltimateBoard), StateInv u → emptyCount u ≤ fuel →
      (playoutRun Z choose fuel u).game_status ≠ GameResult.Continue := by
  intro fuel
  induction fuel with
  | zero =>
    intro u hInv hle
    show u.game_status ≠ GameResult.Continue
    exact emptyCount_zero_game_over hInv (by omega)
  | succ f ih =>
    intro u hInv hle
    unfold playoutRun
    by_cases hC : u.game_status = GameResult.Continue
    · rw [if_pos hC]
      dsimp only
      have hne := moves_ne_nil hInv hC
      have hmem := chosen_mem hne (choose u)
      have hspec := mem_moves_spec hInv hmem
      rw [make_move_eq hC hspec.2.2.2 hspec.1]
      apply ih _ (StateInv_mkStep hInv hmem Z)
      have hstep := emptyCount_mkStep hInv hmem Z
      omega
    · rw [if_neg hC]
      exact hC

/-- Nine 9-square boards: there are never more than 81 empty squares. -/
theorem emptyCount_le (u : UltimateBoard) : emptyCount u ≤ 81 := by
  rw [emptyCount]
  have h := List.countP_le_length
    (p := fun g => decide ((u.boards.getD (g / 9) default).emptyAt (g % 9)))
    (l := List.range 81)
  rw [List.length_range] at h
  exact h

/-! ## Claim theorems: the game state -/

/-- C1: after every sequence of legal `make_move` calls from
`UltimateBoard::new()` the hash equals the XOR of the Zobrist entries of
every marked (global square, player) pair, plus the entry of the current
`next_board_index` when present; concretely, playing global moves 0 then 1
on the empty board yields `Z[0] ^ Z[3] ^ Z[162 + 1]`.  This holds for
every Zobrist table `Z`. -/
theorem C1_hash_invariant :
    (∀ (Z : Nat → Nat) (ms : List Nat) (u : UltimateBoard),
      applyMoves Z UltimateBoard.new ms = some u → u.hash = specHash Z u) ∧
    (∀ Z : Nat → Nat,
      (applyMoves Z UltimateBoard.new [0, 1]).map UltimateBoard.hash =
        some (Z 0 ^^^ Z 3 ^^^ Z (162 + 1))) := by
  constructor
  · intro Z ms u happ
    exact hash_applyMoves ms UltimateBoard.new u StateInv_new (by rw [specHash_new]; rfl) happ
  · intro Z
    have hn0 : UltimateBoard.new.next_board_index = none := rfl
    have hC0 : UltimateBoard.new.game_status = GameResult.Continue := rfl
    have heq0 : UltimateBoard.new.make_move Z 0 = some (mkStep UltimateBoard.new Z 0) :=
      make_move_eq hC0 (fun j h => by rw [hn0] at h; cases h) (by norm_num)
    have hn1 : (mkStep UltimateBoard.new Z 0).next_board_index = some 0 := rfl
    have hC1 : (mkStep UltimateBoard.new Z 0).game_status = GameResult.Continue := rfl
    have hb1 := mkStep_boards UltimateBoard.new Z 0
    have hmem1 : (1 : Nat) ∈ (mkStep UltimateBoard.new Z 0).get_possible_moves := by
      have hmv : (mkStep UltimateBoard.new Z 0).get_possible_moves =
          (((mkStep UltimateBoard.new Z 0).boards).getD 0 default).get_possible_moves := by
        unfold UltimateBoard.get_possible_moves
        rw [hn1]
      rw [hmv, hb1]
      decide
    have heq1 : (mkStep UltimateBoard.new Z 0).make_move Z 1 =
        some (mkStep (mkStep UltimateBoard.new Z 0) Z 1) :=
      make_move_eq hC1 (fun j h => by rw [hn1] at h; cases h; rfl) (by norm_num)
    have happ : applyMoves Z UltimateBoard.new [0, 1] =
        some (mkStep (mkStep UltimateBoard.new Z 0) Z 1) := by
      simp only [applyMoves,
        if_pos (show (0 : Nat) ∈ UltimateBoard.new.get_possible_moves by decide),
        heq0, if_pos hmem1, heq1]
    rw [happ, Option.map_some']
    congr 1
    have hh1 : (mkStep UltimateBoard.new Z 0).hash = Z 0 ^^^ Z 162 := by
      rcases mkStep_next_hash UltimateBoard.new Z 0 with ⟨_, hh⟩ | ⟨hne, _⟩
      · rw [hh, hn0]
        show ((UltimateBoard.new.hash ^^^ Z (0 * 2 + UltimateBoard.new.current_player.toNat)) ^^^
          nextC Z none) ^^^ Z (0 % 9 + ZOBRIST_NEXT_OFFSET) = _
        rw [show UltimateBoard.new.hash = 0 from rfl,
          show UltimateBoard.new.current_player = Player.One from rfl]
        simp only [nextC, Nat.xor_zero, Nat.zero_xor]
        norm_num [Player.toNat, ZOBRIST_NEXT_OFFSET]
      · rw [hn1] at hne
        cases hne
    have hh2 : (mkStep (mkStep UltimateBoard.new Z 0) Z 1).hash =
        ((Z 0 ^^^ Z 162) ^^^ Z 3 ^^^ Z 162) ^^^ Z 163 := by
      have hn2 : (mkStep (mkStep UltimateBoard.new Z 0) Z 1).next_board_index = some 1 := rfl
      rcases mkStep_next_hash (mkStep UltimateBoard.new Z 0) Z 1 with ⟨_, hh⟩ | ⟨hne, _⟩
      · rw [hh, hn1, hh1]
        rw [show (mkStep UltimateBoard.new Z 0).current_player = Player.Two from rfl]
        simp only [nextC]
        norm_num [Player.toNat, ZOBRIST_NEXT_OFFSET]
      · rw [hn2] at hne
        cases hne
    rw [hh2, xor_rot (Z 0 ^^^ Z 162) (Z 3) (Z 162), Nat.xor_cancel_right]

/-- C1 witness: the invariant applied to the concrete table `Z n = n + 1`
and the legal play `[0, 1]`. -/
theorem C1_hash_invariant_witness :
    applyMoves (fun n => n + 1) UltimateBoard.new [0, 1] =
      some ((applyMoves (fun n => n + 1) UltimateBoard.new [0, 1]).getD default) ∧
    ((applyMoves (fun n => n + 1) UltimateBoard.new [0, 1]).getD default).hash =
      specHash (fun n => n + 1)
        ((applyMoves (fun n => n + 1) UltimateBoard.new [0, 1]).getD default) :=
  ⟨by decide, C1_hash_invariant.1 (fun n => n + 1) [0, 1] _ (by decide)⟩

/-- C2: in every state reachable from `UltimateBoard::new()` by legal
moves, if the game status is `Continue` then `get_possible_moves` yields
at least one move. -/
theorem C2_moves_nonempty :
    ∀ (Z : Nat → Nat) (ms : List Nat) (u : UltimateBoard),
      applyMoves Z UltimateBoard.new ms = some u →
      u.game_status = GameResult.Continue → u.get_possible_moves ≠ [] :=
  fun Z ms u happ hC =>
    moves_ne_nil (StateInv_applyMoves ms UltimateBoard.new u StateInv_new happ) hC

/-- C2 witness: the fresh board is reachable (empty move list), running,
and indeed offers a move. -/
theorem C2_moves_nonempty_witness :
    UltimateBoard.new.get_possible_moves ≠ [] :=
  C2_moves_nonempty (fun _ => 0) [] UltimateBoard.new rfl rfl

/-- C3 counterexample: `make_move` silently accepts a move onto an
occupied square.  After the legal move 0 (player One marks square 0 and is
sent back to board 0), the illegal move 0 by player Two completes normally
— no panic — and leaves square 0's bit set for both players. -/
theorem C3_occupied_square_accepted :
    ((UltimateBoard.new.make_move (fun _ => 0) 0).bind
        (fun u => u.make_move (fun _ => 0) 0)).map
      (fun u => (((u.boards.getD 0 default).boardOne.testBit 0),
        ((u.boards.getD 0 default).boardTwo.testBit 0))) = some (true, true) := by
  decide

/-- C3 amended: `make_move` panics when the game is already decided and
when the move targets a sub-board other than the forced one; it does not
check square occupancy, so a move onto an occupied square completes
normally (and can set the square's bit for both players, as the
counterexample shows). -/
theorem C3_panics_on_game_over_and_wrong_board :
    (∀ (Z : Nat → Nat) (u : UltimateBoard) (m : Nat),
      u.game_status ≠ GameResult.Continue → u.make_move Z m = none) ∧
    (∀ (Z : Nat → Nat) (u : UltimateBoard) (m j : Nat),
      u.next_board_index = some j → j ≠ m / 9 → u.make_move Z m = none) := by
  constructor
  · intro Z u m hC
    unfold UltimateBoard.make_move
    rw [if_pos hC]
  · intro Z u m j hj hne
    by_cases hC : u.game_status = GameResult.Continue
    · unfold UltimateBoard.make_move
      rw [if_neg (by rw [hC]; simp), hj]
      rw [if_pos (bne_iff_ne.mpr hne)]
    · unfold UltimateBoard.make_move
      rw [if_pos hC]

/-- C3 witness: both panic conditions fire on concrete states — a drawn
game rejects every move, and a forced board 5 rejects a move on board 0. -/
theorem C3_panics_witness :
    ({ UltimateBoard.new with game_status := GameResult.Draw : UltimateBoard }.make_move
        (fun _ => 0) 0 = none) ∧
    ({ UltimateBoard.new with next_board_index := some 5 : UltimateBoard }.make_move
        (fun _ => 0) 0 = none) :=
  ⟨C3_panics_on_game_over_and_wrong_board.1 (fun _ => 0) _ 0 (by decide),
   C3_panics_on_game_over_and_wrong_board.2 (fun _ => 0) _ 0 5 rfl (by decide)⟩

/-- C4: `get_possible_moves` is exactly the translated empty squares of
the forced sub-board when one is forced, and exactly the union of the
empty squares of the sub-boards whose cached status is `Continue` under
free choice — squares of decided sub-boards are never offered. -/
theorem C4_possible_moves_exact :
    ∀ (u : UltimateBoard), StateInv u → ∀ (m : Nat),
      m ∈ u.get_possible_moves ↔
        match u.next_board_index with
        | some i => ∃ h, h < 9 ∧ (u.boards.getD i default).emptyAt h ∧ m = 9 * i + h
        | none => ∃ i, i < 9 ∧
            u.board_status.getD i GameResult.Continue = GameResult.Continue ∧
            ∃ h, h < 9 ∧ (u.boards.getD i default).emptyAt h ∧ m = 9 * i + h :=
  fun _ hInv m => possible_moves_char hInv m

/-- C4 witness: the characterization applied to the fresh board at global
square 40 (board 4, square 4). -/
theorem C4_possible_moves_exact_witness :
    (40 : Nat) ∈ UltimateBoard.new.get_possible_moves ↔
      match UltimateBoard.new.next_board_index with
      | some i => ∃ h, h < 9 ∧ (UltimateBoard.new.boards.getD i default).emptyAt h ∧
          40 = 9 * i + h
      | none => ∃ i, i < 9 ∧
          UltimateBoard.new.board_status.getD i GameResult.Continue = GameResult.Continue ∧
          ∃ h, h < 9 ∧ (UltimateBoard.new.boards.getD i default).emptyAt h ∧ 40 = 9 * i + h :=
  C4_possible_moves_exact UltimateBoard.new StateInv_new 40

/-- C9: translating a local square index to its bit position and back is
the identity on 0..9, and no two distinct local indices map to the same
bit position. -/
theorem C9_translation_bijective :
    (∀ i : Fin 9, from_bit_to_human (from_human_to_bit i.val) = i.val) ∧
    ((List.range 9).map from_human_to_bit).Nodup := by
  decide

/-- C10: from every reachable state, the playout loop (pick any legal
move, apply it) reaches a decided game within 81 iterations: each legal
move fills an empty square, and with no empty square on a continuable
sub-board the game cannot be `Continue`. -/
theorem C10_playout_terminates :
    ∀ (Z : Nat → Nat) (choose : UltimateBoard → Nat) (ms : List Nat) (u : UltimateBoard),
      applyMoves Z UltimateBoard.new ms = some u →
      (playoutRun Z choose 81 u).game_status ≠ GameResult.Continue :=
  fun Z choose ms u happ =>
    playoutRun_game_over 81 u (StateInv_applyMoves ms UltimateBoard.new u StateInv_new happ)
      (by have := emptyCount_le u; omega)

/-- C10 witness: the playout from the fresh board (always choosing the
first listed move) is decided within 81 steps. -/
theorem C10_playout_terminates_witness :
    (playoutRun (fun _ => 0) (fun _ => 0) 81 UltimateBoard.new).game_status ≠
      GameResult.Continue :=
  C10_playout_terminates (fun _ => 0) (fun _ => 0) [] UltimateBoard.new rfl

/-! ## The minimax agent (`src/agents/minimax_agent.rs`)

`Number` wraps an `f64` that the search only compares and passes through
(no arithmetic is performed on scores inside the search), so scores are
modelled as `ℚ`, which has the same order-theoretic behavior on the exact
values involved.  `Number::MIN` / `Number::MAX` are the exact values of
`f64::MIN` / `f64::MAX`. -/

/-- `Number::MIN = f64::MIN = -(2^1024 - 2^971)`. -/
def numberMIN : ℚ := -(2 ^ 1024 - 2 ^ 971)

/-- `Number::MAX = f64::MAX = 2^1024 - 2^971`. -/
def numberMAX : ℚ := 2 ^ 1024 - 2 ^ 971

/-- `HashMap::get` on the transposition table (later inserts shadow
earlier ones, hence the front-biased lookup). -/
def tableLookup (t : List (Nat × ℚ)) (k : Nat) : Option ℚ :=
  (t.find? (fun p => p.1 == k)).map (fun p => p.2)

/-- `HashMap::insert` on the transposition table. -/
def tableInsert (t : List (Nat × ℚ)) (k : Nat) (v : ℚ) : List (Nat × ℚ) :=
  (k, v) :: t

/-- `MiniMaxAgent::quiescence_search`, parameterized by the heuristic `h`
and Zobrist table `Z`.  Checks, in source order: depth 0, game over, a
forced next board, no possible moves — each returns the heuristic value
directly; otherwise an alpha-beta loop over the moves recursing one level
shallower.  The loop's early `break` on `alpha >= beta` is modelled by a
stop flag threaded through the fold.  (`make_move` cannot panic here:
the loop runs only on a running game with free choice, so the `getD`
fallback is unreachable.) -/
def quiescence_search (h : UltimateBoard → ℚ) (Z : Nat → Nat) :
    Nat → UltimateBoard → Bool → ℚ → ℚ → ℚ
  | 0, board, _, _, _ => h board
  | depth + 1, board, maximizing, alpha, beta =>
    if board.game_status ≠ GameResult.Continue then h board
    else if board.next_board_index.isSome then h board
    else
      match board.get_possible_moves with
      | [] => h board
      | moves =>
        if maximizing then
          (moves.foldl (fun s current_move =>
            if s.2 then s
            else
              let value := quiescence_search h Z depth
                ((board.make_move Z current_move).getD board) false s.1 beta
              let alpha' := max s.1 value
              (alpha', decide (beta ≤ alpha'))) (alpha, false)).1
        else
          (moves.foldl (fun s current_move =>
            if s.2 then s
            else
              let value := quiescence_search h Z depth
                ((board.make_move Z current_move).getD board) true alpha s.1
              let beta' := min s.1 value
              (beta', decide (beta' ≤ alpha))) (beta, false)).1

/-- `MiniMaxAgent::minimax`: at depth 0 control transfers to
`quiescence_search` (with the configured quiescence depth); otherwise
terminal or move-less states evaluate via the heuristic, the transposition
table is consulted by hash, and an alpha-beta loop recurses one level
shallower, storing the resulting bound in the table. -/
def minimax (h : UltimateBoard → ℚ) (Z : Nat → Nat) (quiescence_search_depth : Nat) :
    Nat → UltimateBoard → Bool → ℚ → ℚ → List (Nat × ℚ) → ℚ × List (Nat × ℚ)
  | 0, board, maximizing, alpha, beta, t =>
    (quiescence_search h Z quiescence_search_depth board maximizing alpha beta, t)
  | depth + 1, board, maximizing, alpha, beta, t =>
    if board.game_status ≠ GameResult.Continue then (h board, t)
    else
      match board.get_possible_moves with
      | [] => (h board, t)
      | moves =>
        match tableLookup t board.hash with
        | some evaluation => (evaluation, t)
        | none =>
          if maximizing then
            let s := moves.foldl (fun s current_move =>
              if s.2.2 then s
              else
                let r := minimax h Z quiescence_search_depth depth
                  ((board.make_move Z current_move).getD board) false s.1 beta s.2.1
                let alpha' := max s.1 r.1
                (alpha', r.2, decide (beta ≤ alpha'))) (alpha, t, false)
            (s.1, tableInsert s.2.1 board.hash s.1)
          else
            let s := moves.foldl (fun s current_move =>
              if s.2.2 then s
              else
                let r := minimax h Z quiescence_search_depth depth
                  ((board.make_move Z current_move).getD board) true alpha s.1 s.2.1
                let beta' := min s.1 r.1
                (beta', r.2, decide (beta' ≤ alpha))) (beta, t, false)
            (s.1, tableInsert s.2.1 board.hash s.1)

/-- The root loop of `MiniMaxAgent::get_best_move`: `alpha` starts at
`Number::MIN`, `beta` stays `Number::MAX`, each move is searched with the
running alpha, and the best move is replaced only on `value > alpha`
(strict).  There is no break in the root loop. -/
def rootLoop (h : UltimateBoard → ℚ) (Z : Nat → Nat) (quiescence_search_depth depthm1 : Nat)
    (board : UltimateBoard) :
    List Nat → ℚ → Option Nat → List (Nat × ℚ) → ℚ × Option Nat × List (Nat × ℚ)
  | [], alpha, best_move, t => (alpha, best_move, t)
  | current_move :: rest, alpha, best_move, t =>
    let r := minimax h Z quiescence_search_depth depthm1
      ((board.make_move Z current_move).getD board) false alpha numberMAX t
    if alpha < r.1 then
      rootLoop h Z quiescence_search_depth depthm1 board rest r.1 (some current_move) r.2
    else
      rootLoop h Z quiescence_search_depth depthm1 board rest alpha best_move r.2

/-- `MiniMaxAgent::get_best_move` (the root call of `act`). -/
def get_best_move (h : UltimateBoard → ℚ) (Z : Nat → Nat)
    (quiescence_search_depth depth : Nat) (board : UltimateBoard) : Option Nat :=
  (rootLoop h Z quiescence_search_depth (depth - 1) board
    board.get_possible_moves numberMIN none []).2.1

/-! ## Claim theorems: the minimax agent -/

/-- C7: quiescence search recurses only while depth > 0, the game is
`Continue`, and the next board is a free choice; in every other case —
depth 0 (the disabled configuration), a decided game, a forced sub-board,
or no moves — it returns the heuristic evaluation directly; and the main
minimax transfers control to quiescence search exactly at depth 0 (at
positive depth a decided game goes straight to the heuristic). -/
theorem C7_quiescence_control :
    (∀ (h : UltimateBoard → ℚ) (Z : Nat → Nat) (b : UltimateBoard) (maxi : Bool) (α β : ℚ),
      quiescence_search h Z 0 b maxi α β = h b) ∧
    (∀ (h : UltimateBoard → ℚ) (Z : Nat → Nat) (d : Nat) (b : UltimateBoard) (maxi : Bool)
        (α β : ℚ), b.game_status ≠ GameResult.Continue →
      quiescence_search h Z d b maxi α β = h b) ∧
    (∀ (h : UltimateBoard → ℚ) (Z : Nat → Nat) (d : Nat) (b : UltimateBoard) (maxi : Bool)
        (α β : ℚ) (i : Nat), b.next_board_index = some i →
      quiescence_search h Z d b maxi α β = h b) ∧
    (∀ (h : UltimateBoard → ℚ) (Z : Nat → Nat) (d : Nat) (b : UltimateBoard) (maxi : Bool)
        (α β : ℚ), b.get_possible_moves = [] →
      quiescence_search h Z d b maxi α β = h b) ∧
    (∀ (h : UltimateBoard → ℚ) (Z : Nat → Nat) (qd : Nat) (b : UltimateBoard) (maxi : Bool)
        (α β : ℚ) (t : List (Nat × ℚ)),
      minimax h Z qd 0 b maxi α β t = (quiescence_search h Z qd b maxi α β, t)) ∧
    (∀ (h : UltimateBoard → ℚ) (Z : Nat → Nat) (qd d : Nat) (b : UltimateBoard) (maxi : Bool)
        (α β : ℚ) (t : List (Nat × ℚ)), d ≠ 0 → b.game_status ≠ GameResult.Continue →
      minimax h Z qd d b maxi α β t = (h b, t)) := by
  refine ⟨fun h Z b maxi α β => rfl, ?_, ?_, ?_, fun h Z qd b maxi α β t => rfl, ?_⟩
  · intro h Z d b maxi α β hC
    cases d with
    | zero => rfl
    | succ d =>
      unfold quiescence_search
      rw [if_pos hC]
  · intro h Z d b maxi α β i hi
    cases d with
    | zero => rfl
    | succ d =>
      unfold quiescence_search
      by_cases hC : b.game_status ≠ GameResult.Continue
      · rw [if_pos hC]
      · rw [if_neg hC, if_pos (by rw [hi]; rfl)]
  · intro h Z d b maxi α β hmv
    cases d with
    | zero => rfl
    | succ d =>
      unfold quiescence_search
      by_cases hC : b.game_status ≠ GameResult.Continue
      · rw [if_pos hC]
      · rw [if_neg hC]
        by_cases hn : b.next_board_index.isSome
        · rw [if_pos hn]
        · rw [if_neg hn, hmv]
  · intro h Z qd d b maxi α β t hd hC
    cases d with
    | zero => exact absurd rfl hd
    | succ d =>
      unfold minimax
      rw [if_pos hC]

/-- C7 witness: at depth 3 a drawn game and a forced sub-board both
evaluate directly via the heuristic, and minimax at depth 0 hands over to
quiescence search. -/
theorem C7_quiescence_control_witness :
    (quiescence_search (fun _ => (7 : ℚ)) (fun _ => 0) 3
        { UltimateBoard.new with game_status := GameResult.Draw } true 0 1 =
      (fun _ => (7 : ℚ)) { UltimateBoard.new with game_status := GameResult.Draw }) ∧
    (quiescence_search (fun _ => (7 : ℚ)) (fun _ => 0) 3
        { UltimateBoard.new with next_board_index := some 4 } false 0 1 =
      (fun _ => (7 : ℚ)) { UltimateBoard.new with next_board_index := some 4 }) ∧
    ((2 : Nat) ≠ 0 ∧
      minimax (fun _ => (7 : ℚ)) (fun _ => 0) 1 2
          { UltimateBoard.new with game_status := GameResult.Win Player.One } true 0 1 [] =
        ((fun _ => (7 : ℚ)) { UltimateBoard.new with game_status := GameResult.Win Player.One },
          [])) :=
  ⟨C7_quiescence_control.2.1 _ _ 3 _ true 0 1 (by decide),
   C7_quiescence_control.2.2.1 _ _ 3 _ false 0 1 4 rfl,
   by decide,
   C7_quiescence_control.2.2.2.2.2 _ _ 1 2 _ true 0 1 [] (by decide) (by decide)⟩

/-! ## Characterizing the root move choice -/

/-- The sequence of (move, searched value) pairs produced by the root
loop, with the running alpha and transposition table threaded exactly as
`get_best_move` does. -/
def rootTrace (h : UltimateBoard → ℚ) (Z : Nat → Nat) (quiescence_search_depth depthm1 : Nat)
    (board : UltimateBoard) :
    List Nat → ℚ → List (Nat × ℚ) → List (Nat × ℚ)
  | [], _, _ => []
  | current_move :: rest, alpha, t =>
    let r := minimax h Z quiescence_search_depth depthm1
      ((board.make_move Z current_move).getD board) false alpha numberMAX t
    (current_move, r.1) ::
      rootTrace h Z quiescence_search_depth depthm1 board rest
        (if alpha < r.1 then r.1 else alpha) r.2

/-- The maximum of the searched values and the initial alpha. -/
def traceMax (alpha0 : ℚ) (trace : List (Nat × ℚ)) : ℚ :=
  trace.foldr (fun p acc => max p.2 acc) alpha0

/-- Modelled from the claim's words: the earliest move in possible-move
order whose searched value strictly exceeds everything examined before it
and is not strictly exceeded afterwards — i.e. the first move attaining
the maximum searched value (strictly above the initial alpha); ties keep
the earliest such move. -/
def earliestBest (alpha0 : ℚ) (trace : List (Nat × ℚ)) : Option Nat :=
  (trace.find? (fun p => decide (alpha0 < p.2) && decide (traceMax alpha0 trace ≤ p.2))).map
    (fun p => p.1)

theorem le_traceMax (l : List (Nat × ℚ)) (a0 : ℚ) : a0 ≤ traceMax a0 l := by
  induction l with
  | nil => exact le_refl a0
  | cons p l ih => exact le_trans ih (le_max_right p.2 _)

theorem traceMax_max (l : List (Nat × ℚ)) (a b : ℚ) :
    traceMax (max a b) l = max (traceMax a l) b := by
  induction l with
  | nil => rfl
  | cons p l ih =>
    show max p.2 (traceMax (max a b) l) = max (max p.2 (traceMax a l)) b
    rw [ih, max_assoc]

theorem traceMax_attained (l : List (Nat × ℚ)) (i : ℚ) (h : i < traceMax i l) :
    ∃ p ∈ l, p.2 = traceMax i l := by
  induction l with
  | nil => exact absurd h (lt_irrefl i)
  | cons p l ih =>
    show ∃ q ∈ p :: l, q.2 = max p.2 (traceMax i l)
    rcases le_total (traceMax i l) p.2 with hle | hle
    · exact ⟨p, List.mem_cons_self _ _, (max_eq_left hle).symm⟩
    · rw [max_eq_right hle]
      rw [show traceMax i (p :: l) = max p.2 (traceMax i l) from rfl, max_eq_right hle] at h
      rcases ih h with ⟨q, hq, hqv⟩
      exact ⟨q, List.mem_cons_of_mem _ hq, hqv⟩

theorem find?_congr2 {α : Type} {p q : α → Bool} (l : List α) (h : ∀ x, p x = q x) :
    l.find? p = l.find? q := by
  induction l with
  | nil => rfl
  | cons a l ih =>
    rcases hpa : p a with _ | _
    · rw [List.find?_cons_of_neg _ (by simp [hpa]),
        List.find?_cons_of_neg _ (by rw [← h a]; simp [hpa])]
      exact ih
    · rw [List.find?_cons_of_pos _ hpa,
        List.find?_cons_of_pos _ (by rw [← h a]; exact hpa)]

theorem mem_le_traceMax {l : List (Nat × ℚ)} {x : Nat × ℚ} (hx : x ∈ l) (i : ℚ) :
    x.2 ≤ traceMax i l := by
  induction l with
  | nil => cases hx
  | cons q l ih =>
    show x.2 ≤ max q.2 (traceMax i l)
    rcases List.mem_cons.mp hx with rfl | hxl
    · exact le_max_left _ _
    · exact le_trans (ih hxl) (le_max_right _ _)

theorem earliestBest_cons_lt {alpha v : ℚ} {mv : Nat} {rt : List (Nat × ℚ)}
    (hlt : alpha < v) :
    earliestBest alpha ((mv, v) :: rt) =
      match earliestBest v rt with
      | some m => some m
      | none => some mv := by
  have hM : traceMax alpha ((mv, v) :: rt) = traceMax v rt := by
    show max v (traceMax alpha rt) = traceMax v rt
    conv_rhs => rw [show v = max alpha v from (max_eq_right hlt.le).symm]
    rw [traceMax_max, max_comm]
  rcases le_or_lt (traceMax v rt) v with hle | hgt
  · have hMv : traceMax v rt = v := le_antisymm hle (le_traceMax rt v)
    have hfnone : rt.find? (fun p => decide (v < p.2) && decide (traceMax v rt ≤ p.2)) = none := by
      rw [List.find?_eq_none]
      intro x hx
      simp only [Bool.and_eq_true, decide_eq_true_eq, not_and]
      intro hvx
      exact absurd (lt_of_lt_of_le hvx (hMv ▸ mem_le_traceMax hx v)) (lt_irrefl v)
    unfold earliestBest
    rw [List.find?_cons_of_pos, Option.map_some', hfnone]
    · rfl
    · show (decide (alpha < (mv, v).2) && decide (traceMax alpha ((mv, v) :: rt) ≤ (mv, v).2)) =
        true
      simp only [hM, hMv, decide_eq_true_eq, Bool.and_eq_true]
      exact ⟨by simpa using hlt, by simp⟩
  · have hcong : rt.find? (fun p => decide (alpha < p.2) && decide (traceMax v rt ≤ p.2)) =
        rt.find? (fun p => decide (v < p.2) && decide (traceMax v rt ≤ p.2)) := by
      apply find?_congr2
      intro x
      rcases le_or_lt (traceMax v rt) x.2 with hx | hx
      · have h1 : alpha < x.2 := lt_of_lt_of_le (lt_trans hlt hgt) hx
        have h2 : v < x.2 := lt_of_lt_of_le hgt hx
        simp [h1, h2, hx]
      · simp [not_le.mpr hx]
    rcases traceMax_attained rt v hgt with ⟨q, hq, hqv⟩
    have hsome : (rt.find? (fun p => decide (v < p.2) && decide (traceMax v rt ≤ p.2))).isSome := by
      rw [List.find?_isSome]
      exact ⟨q, hq, by simp [hqv.symm ▸ hgt, le_of_eq hqv.symm]⟩
    unfold earliestBest
    rw [List.find?_cons_of_neg, hM, hcong]
    · rcases hfind : rt.find? (fun p => decide (v < p.2) && decide (traceMax v rt ≤ p.2)) with
        _ | q'
      · rw [hfind] at hsome
        cases hsome
      · rw [hfind]
        rfl
    · show ¬ (decide (alpha < (mv, v).2) && decide (traceMax alpha ((mv, v) :: rt) ≤ (mv, v).2)) =
        true
      simp only [hM, Bool.and_eq_true, decide_eq_true_eq, not_and]
      intro _
      simpa using not_le.mpr hgt

theorem earliestBest_cons_ge {alpha v : ℚ} {mv : Nat} {rt : List (Nat × ℚ)}
    (hge : v ≤ alpha) :
    earliestBest alpha ((mv, v) :: rt) = earliestBest alpha rt := by
  have hM : traceMax alpha ((mv, v) :: rt) = traceMax alpha rt := by
    show max v (traceMax alpha rt) = traceMax alpha rt
    exact max_eq_right (le_trans hge (le_traceMax rt alpha))
  unfold earliestBest
  rw [List.find?_cons_of_neg, hM]
  show ¬ (decide (alpha < (mv, v).2) && decide (traceMax alpha ((mv, v) :: rt) ≤ (mv, v).2)) =
    true
  simp only [Bool.and_eq_true, decide_eq_true_eq, not_and]
  intro hlt
  exact absurd (show alpha < v by simpa using hlt) (not_lt.mpr hge)

/-- The root loop returns the earliest maximal strict improver of the
value trace, falling back to the incoming best move when nothing improves
on the incoming alpha. -/
theorem rootLoop_earliestBest (h : UltimateBoard → ℚ) (Z : Nat → Nat)
    (quiescence_search_depth depthm1 : Nat) (board : UltimateBoard) :
    ∀ (moves : List Nat) (alpha : ℚ) (best_move : Option Nat) (t : List (Nat × ℚ)),
      (rootLoop h Z quiescence_search_depth depthm1 board moves alpha best_move t).2.1 =
        match earliestBest alpha
            (rootTrace h Z quiescence_search_depth depthm1 board moves alpha t) with
        | some m => some m
        | none => best_move := by
  intro moves
  induction moves with
  | nil =>
    intro alpha best_move t
    rfl
  | cons current_move rest ih =>
    intro alpha best_move t
    show (if alpha < (minimax h Z quiescence_search_depth depthm1
        ((board.make_move Z current_move).getD board) false alpha numberMAX t).1 then
          rootLoop h Z quiescence_search_depth depthm1 board rest _ (some current_move) _
        else rootLoop h Z quiescence_search_depth depthm1 board rest alpha best_move _).2.1 = _
    set r := minimax h Z quiescence_search_depth depthm1
      ((board.make_move Z current_move).getD board) false alpha numberMAX t with hr
    by_cases hlt : alpha < r.1
    · rw [if_pos hlt]
      rw [ih r.1 (some current_move) r.2]
      have htr : rootTrace h Z quiescence_search_depth depthm1 board
          (current_move :: rest) alpha t =
          (current_move, r.1) ::
            rootTrace h Z quiescence_search_depth depthm1 board rest r.1 r.2 := by
        show (current_move, r.1) ::
            rootTrace h Z quiescence_search_depth depthm1 board rest
              (if alpha < r.1 then r.1 else alpha) r.2 = _
        rw [if_pos hlt]
      rw [htr, earliestBest_cons_lt hlt]
      rcases earliestBest r.1
        (rootTrace h Z quiescence_search_depth depthm1 board rest r.1 r.2) with _ | m <;> rfl
    · rw [if_neg hlt]
      rw [ih alpha best_move r.2]
      have htr : rootTrace h Z quiescence_search_depth depthm1 board
          (current_move :: rest) alpha t =
          (current_move, r.1) ::
            rootTrace h Z quiescence_search_depth depthm1 board rest alpha r.2 := by
        show (current_move, r.1) ::
            rootTrace h Z quiescence_search_depth depthm1 board rest
              (if alpha < r.1 then r.1 else alpha) r.2 = _
        rw [if_neg hlt]
      rw [htr, earliestBest_cons_ge (not_lt.mp hlt)]

/-- C8: the move returned by the root minimax call is the earliest move
in possible-move order whose searched value strictly exceeds all values
examined before it and is never strictly exceeded afterwards (the first
move attaining the maximal value, strictly above the initial alpha
`Number::MIN`); and a move whose value does not strictly exceed the
running alpha never replaces the current best move, so ties keep the
earliest move found. -/
theorem C8_root_keeps_earliest_best :
    (∀ (h : UltimateBoard → ℚ) (Z : Nat → Nat) (quiescence_search_depth depth : Nat)
        (board : UltimateBoard),
      get_best_move h Z quiescence_search_depth depth board =
        earliestBest numberMIN
          (rootTrace h Z quiescence_search_depth (depth - 1) board
            board.get_possible_moves numberMIN [])) ∧
    (∀ (h : UltimateBoard → ℚ) (Z : Nat → Nat) (quiescence_search_depth depthm1 : Nat)
        (board : UltimateBoard) (current_move : Nat) (rest : List Nat) (alpha : ℚ)
        (best_move : Option Nat) (t : List (Nat × ℚ)),
      (minimax h Z quiescence_search_depth depthm1
          ((board.make_move Z current_move).getD board) false alpha numberMAX t).1 ≤ alpha →
      rootLoop h Z quiescence_search_depth depthm1 board (current_move :: rest) alpha
          best_move t =
        rootLoop h Z quiescence_search_depth depthm1 board rest alpha best_move
          (minimax h Z quiescence_search_depth depthm1
            ((board.make_move Z current_move).getD board) false alpha numberMAX t).2) := by
  constructor
  · intro h Z quiescence_search_depth depth board
    rw [get_best_move, rootLoop_earliestBest]
    rcases earliestBest numberMIN
      (rootTrace h Z quiescence_search_depth (depth - 1) board
        board.get_possible_moves numberMIN []) with _ | m <;> rfl
  · intro h Z quiescence_search_depth depthm1 board current_move rest alpha best_move t hle
    show (if alpha < (minimax h Z quiescence_search_depth depthm1
        ((board.make_move Z current_move).getD board) false alpha numberMAX t).1 then _
      else _) = _
    rw [if_neg (not_lt.mpr hle)]

/-- C8 witness: with the zero heuristic at depth 1 the first searched
value equals the running alpha 0, and the loop keeps the incoming best
move unchanged. -/
theorem C8_root_keeps_earliest_best_witness :
    (minimax (fun _ => (0 : ℚ)) (fun _ => 0) 0 0
        ((UltimateBoard.new.make_move (fun _ => 0) 0).getD UltimateBoard.new) false 0
        numberMAX []).1 ≤ 0 ∧
    rootLoop (fun _ => (0 : ℚ)) (fun _ => 0) 0 0 UltimateBoard.new [0] 0 (some 7) [] =
      rootLoop (fun _ => (0 : ℚ)) (fun _ => 0) 0 0 UltimateBoard.new [] 0 (some 7)
        (minimax (fun _ => (0 : ℚ)) (fun _ => 0) 0 0
          ((UltimateBoard.new.make_move (fun _ => 0) 0).getD UltimateBoard.new) false 0
          numberMAX []).2 :=
  ⟨by decide,
   C8_root_keeps_earliest_best.2 (fun _ => (0 : ℚ)) (fun _ => 0) 0 0 UltimateBoard.new 0 [] 0
     (some 7) [] (by decide)⟩

/-! ## The Monte-Carlo tree-search agent (`src/agent/monte_carlo_tree_agent/mod.rs`)

The UCT computation is on `f64`; it is modelled over `ℝ` (exact values,
no rounding).  The comparisons `partial_cmp(..).unwrap_or(Equal)` never
see a NaN on the inputs considered here (all denominators are nonzero). -/

/-- The win/draw/loss counters of a tree node. -/
structure Stats where
  wins : Nat
  draws : Nat
  losses : Nat
deriving DecidableEq, Repr

/-- `Stats::total`. -/
def Stats.total (s : Stats) : Nat := s.wins + s.draws + s.losses

/-- The data of a tree node: a board snapshot, the move that produced it
(absent at the root), and its statistics. -/
structure NodeInfo where
  board : UltimateBoard
  move_index : Option Nat
  stats : Stats
deriving DecidableEq, Repr

/-- `NodeInfo::uct_value`: `wins / visits + (2 * ln(parent_visits)) /
wins` — the exploration term is `2 ln(parent visits)` (no square root)
divided by the node's own win count. -/
noncomputable def uct_value (s : Stats) (parent_visits : Nat) : ℝ :=
  (s.wins : ℝ) / (s.total : ℝ) + (2 * Real.log (parent_visits : ℝ)) / (s.wins : ℝ)

/-- Modelled from the claim's words: win ratio plus an exploration bonus
of `sqrt(ln(parent visits))` normalized by the child's win count. -/
noncomputable def uct_value_claimed (s : Stats) (parent_visits : Nat) : ℝ :=
  (s.wins : ℝ) / (s.total : ℝ) + Real.sqrt (Real.log (parent_visits : ℝ)) / (s.wins : ℝ)

/-- `Iterator::max_by` with `partial_cmp(..).unwrap_or(Equal)`: fold that
keeps the accumulated element only when the new one scores strictly
less — equal maxima resolve to the last element, as in Rust. -/
def maxByLast {α β : Type} [LinearOrder β] (f : α → β) (l : List α) : Option α :=
  l.foldl (fun acc x =>
    match acc with
    | none => some x
    | some a => if f x < f a then some a else some x) none

/-- `tree_root` with `iterations = 0`: the `for _ in 0..0` loop never
invokes `tree_search`, so the root keeps the empty children list it was
constructed with (`Node::new`). -/
def tree_root_children_zero_iterations (_board : UltimateBoard) : List NodeInfo := []

/-! ## Claim theorems: the MCTS agent -/

/-- C5: with the configured iteration count 0, the root's child list is
empty, `max_by` over it returns `None`, and the `.unwrap()` in
`tree_root` panics — `act` does not return a legal move (it does not
return at all), for any board, terminal or not. -/
theorem C5_zero_iterations_unwrap_panics :
    ∀ (board : UltimateBoard) (score : NodeInfo → ℝ),
      (maxByLast score (tree_root_children_zero_iterations board)).map
        (fun best_child => best_child.move_index) = none :=
  fun _ _ => rfl

/-- The two concrete children used to separate the implemented UCT
formula from the claimed one: A has 1 win in 4 playouts, B has 2 wins in
2 playouts; the parent has 8 visits. -/
def childA : NodeInfo := ⟨UltimateBoard.new, some 0, ⟨1, 3, 0⟩⟩

def childB : NodeInfo := ⟨UltimateBoard.new, some 1, ⟨2, 0, 0⟩⟩

/-- C6 counterexample: at parent visits 8 the implemented selection
(`wins/total + 2·ln(parent)/wins`) descends into child A, while the
claimed formula (`wins/total + sqrt(ln(parent))/wins`) would pick child
B: the claimed score is not the one the code maximizes. -/
theorem C6_formula_differs :
    maxByLast (fun c => uct_value c.stats 8) [childA, childB] = some childA ∧
    maxByLast (fun c => uct_value_claimed c.stats 8) [childA, childB] = some childB ∧
    childA ≠ childB := by
  have hl2gt : (0.6931471803 : ℝ) < Real.log 2 := Real.log_two_gt_d9
  have hl2lt : Real.log 2 < 0.6931471808 := Real.log_two_lt_d9
  have hlog8 : Real.log ((8 : Nat) : ℝ) = 3 * Real.log 2 := by
    rw [show ((8 : Nat) : ℝ) = 2 ^ 3 by norm_num, Real.log_pow]
    push_cast
    ring
  refine ⟨?_, ?_, by decide⟩
  · have h1 : uct_value childB.stats 8 < uct_value childA.stats 8 := by
      unfold uct_value Stats.total childA childB
      simp only
      rw [hlog8]
      norm_num
      linarith
    show (if uct_value childB.stats 8 < uct_value childA.stats 8 then some childA
      else some childB) = some childA
    rw [if_pos h1]
  · have hsq : Real.sqrt (3 * Real.log 2) ≤ 3 / 2 := by
      have h94 : 3 * Real.log 2 ≤ 9 / 4 := by linarith
      calc Real.sqrt (3 * Real.log 2) ≤ Real.sqrt (9 / 4) := Real.sqrt_le_sqrt h94
        _ = 3 / 2 := by
          rw [show (9 / 4 : ℝ) = (3 / 2) ^ 2 by norm_num]
          exact Real.sqrt_sq (by norm_num)
    have h2 : uct_value_claimed childA.stats 8 ≤ uct_value_claimed childB.stats 8 := by
      have hs := hsq
      rw [Real.sqrt_mul (by norm_num : (0 : ℝ) ≤ 3)] at hs
      unfold uct_value_claimed Stats.total childA childB
      simp only
      rw [hlog8]
      norm_num
      linarith [hs]
    show (if uct_value_claimed childB.stats 8 < uct_value_claimed childA.stats 8 then some childA
      else some childB) = some childB
    rw [if_neg (not_lt.mpr h2)]

theorem maxByLast_go {α β : Type} [LinearOrder β] (f : α → β) :
    ∀ (l : List α) (acc : Option α) (c : α),
      l.foldl (fun acc x =>
        match acc with
        | none => some x
        | some a => if f x < f a then some a else some x) acc = some c →
      (acc = some c ∨ c ∈ l) ∧ (∀ x ∈ l, f x ≤ f c) ∧ (∀ a, acc = some a → f a ≤ f c) := by
  intro l
  induction l with
  | nil =>
    intro acc c h
    have h' : acc = some c := h
    refine ⟨Or.inl h', fun x hx => absurd hx (List.not_mem_nil x), fun a ha => ?_⟩
    rw [h'] at ha
    cases ha
    exact le_refl _
  | cons x l ih =>
    intro acc c h
    rcases acc with _ | a
    · have IH := ih (some x) c h
      refine ⟨?_, ?_, fun a ha => by cases ha⟩
      · rcases IH.1 with heq | hmem
        · cases heq
          exact Or.inr (List.mem_cons_self _ _)
        · exact Or.inr (List.mem_cons_of_mem _ hmem)
      · intro y hy
        rcases List.mem_cons.mp hy with rfl | hyl
        · exact IH.2.2 y rfl
        · exact IH.2.1 y hyl
    · simp only [List.foldl_cons] at h
      by_cases hfx : f x < f a
      · rw [if_pos hfx] at h
        have IH := ih (some a) c h
        refine ⟨?_, ?_, ?_⟩
        · rcases IH.1 with heq | hmem
          · exact Or.inl heq
          · exact Or.inr (List.mem_cons_of_mem _ hmem)
        · intro y hy
          rcases List.mem_cons.mp hy with rfl | hyl
          · exact le_trans hfx.le (IH.2.2 a rfl)
          · exact IH.2.1 y hyl
        · intro b hb
          cases hb
          exact IH.2.2 a rfl
      · rw [if_neg hfx] at h
        have IH := ih (some x) c h
        refine ⟨?_, ?_, ?_⟩
        · rcases IH.1 with heq | hmem
          · cases heq
            exact Or.inr (List.mem_cons_self _ _)
          · exact Or.inr (List.mem_cons_of_mem _ hmem)
        · intro y hy
          rcases List.mem_cons.mp hy with rfl | hyl
          · exact IH.2.2 y rfl
          · exact IH.2.1 y hyl
        · intro b hb
          cases hb
          exact le_trans (not_lt.mp hfx) (IH.2.2 x rfl)

theorem maxByLast_spec {α β : Type} [LinearOrder β] (f : α → β) (l : List α) (c : α)
    (h : maxByLast f l = some c) : c ∈ l ∧ ∀ x ∈ l, f x ≤ f c := by
  have hgo := maxByLast_go f l none c h
  refine ⟨?_, hgo.2.1⟩
  rcases hgo.1 with heq | hmem
  · cases heq
  · exact hmem

/-- C6 amended: at every selection step the child descended into is one
maximizing `wins / total + (2 * ln(parent visits)) / wins` — the win
ratio plus an exploration term of `2·ln(parent visits)` (no square root)
normalized by the child's win count — over the node's children, ties
resolved to the last-listed child. -/
theorem C6_selection_maximizes_uct :
    ∀ (children : List NodeInfo) (parent_visits : Nat) (best_child : NodeInfo),
      maxByLast (fun child => uct_value child.stats parent_visits) children =
        some best_child →
      best_child ∈ children ∧
        ∀ child ∈ children,
          uct_value child.stats parent_visits ≤ uct_value best_child.stats parent_visits :=
  fun children parent_visits best_child h => maxByLast_spec _ children best_child h

/-- C6 amended witness: the selection over a single child picks it, and
it trivially maximizes the implemented score. -/
theorem C6_selection_maximizes_uct_witness :
    maxByLast (fun child => uct_value child.stats 0) [childA] = some childA ∧
    (childA ∈ [childA] ∧
      ∀ child ∈ [childA], uct_value child.stats 0 ≤ uct_value childA.stats 0) :=
  ⟨rfl, C6_selection_maximizes_uct [childA] 0 childA rfl⟩
